import Mathlib

/-!
Verification of the day 23 grid-maze reduction and longest-simple-path engine.

The definitions below are a shallow embedding of the functions in
`day23/day23.py`:

* grids are lists of rows of characters, positions are integer pairs;
* Python dictionaries become association lists (unique keys, insertion
  order preserved, updates in place);
* the explicit `while stack:` loop of `build_graph` becomes a fuel-indexed
  recursion (`walkLoop`); the fuel `buildFuel` dominates the loop's real
  iteration count, which is bounded by the number of grid cells;
* the recursive `dfs` inside `get_max_steps` likewise carries fuel
  (`dfsFuel`), and a `none` result models an uncaught Python exception
  (a `KeyError` on a missing adjacency key);
* Python's `-float("inf")` seed of the maximum becomes `(⊥ : WithBot ℤ)`,
  whose `max` and `+` behave exactly like the float infinity arithmetic
  used by the source.
-/

namespace Day23

abbrev Pos := ℤ × ℤ

abbrev Grid := List (List Char)

/-- Number of rows of the grid, `len(grid)`. -/
def rowCount (g : Grid) : ℕ := g.length

/-- Number of columns, `len(grid[0])` (0 for an empty grid). -/
def colCount (g : Grid) : ℕ := (g.headD []).length

/-- Character of the grid at a position, `grid[x][y]`; out-of-range
reads default to a wall (the source only reads in-bounds cells). -/
def cellAt (g : Grid) (c : Pos) : Char :=
  (g.getD c.1.toNat []).getD c.2.toNat '#'

/-- Embedding of `is_valid_loc`: bounds check only (walls are valid). -/
def is_valid_loc (g : Grid) (c : Pos) : Bool :=
  decide (0 ≤ c.1 ∧ c.1 < (rowCount g : ℤ) ∧ 0 ≤ c.2 ∧ c.2 < (colCount g : ℤ))

/-- A grid is rectangular: every row has the row-0 length.  (The spec's
data-model invariant; the source indexes rows by the length of row 0.) -/
def Rect (g : Grid) : Prop := ∀ row ∈ g, row.length = colCount g

/-- Index of the first `'.'` in a row, defaulting to `0` when there is
none — the `start_y, finish_y = 0, 0` initialisation of the source. -/
def firstDotY (row : List Char) : ℤ :=
  ((row.findIdx? (fun ch => ch = '.')).getD 0 : ℕ)

/-- Embedding of `get_start_finish`. -/
def get_start_finish (g : Grid) : Pos × Pos :=
  ((0, firstDotY (g.headD [])), ((g.length : ℤ) - 1, firstDotY (g.getLastD [])))

/-- Neighbour offsets in the order used by `get_nxt_cells_p1/p2`. -/
def nbrDirs : List Pos := [(0, 1), (0, -1), (1, 0), (-1, 0)]

/-- The in-bounds non-wall orthogonal neighbours of a cell, in source
order: the shared `else` branch of `get_nxt_cells_p1` and the whole of
`get_nxt_cells_p2`. -/
def openNbrs (g : Grid) (c : Pos) : List Pos :=
  nbrDirs.filterMap (fun d =>
    if is_valid_loc g (c.1 + d.1, c.2 + d.2) ∧ cellAt g (c.1 + d.1, c.2 + d.2) ≠ '#' then
      some (c.1 + d.1, c.2 + d.2)
    else none)

/-- Embedding of `get_nxt_cells_p1` (part 1, slope-constrained moves). -/
def get_nxt_cells_p1 (g : Grid) (c : Pos) : List Pos :=
  if cellAt g c = '>' ∧ is_valid_loc g (c.1, c.2 + 1) then [(c.1, c.2 + 1)]
  else if cellAt g c = '<' ∧ is_valid_loc g (c.1, c.2 - 1) then [(c.1, c.2 - 1)]
  else if cellAt g c = '^' ∧ is_valid_loc g (c.1 - 1, c.2) then [(c.1 - 1, c.2)]
  else if cellAt g c = 'v' ∧ is_valid_loc g (c.1 + 1, c.2) then [(c.1 + 1, c.2)]
  else openNbrs g c

/-- Embedding of `get_nxt_cells_p2` (part 2, free moves). -/
def get_nxt_cells_p2 (g : Grid) (c : Pos) : List Pos := openNbrs g c

/-- Neighbour offsets in the order used by `get_option_points`. -/
def countDirs : List Pos := [(1, 0), (-1, 0), (0, 1), (0, -1)]

/-- Number of in-bounds non-wall orthogonal neighbours of a cell, as
counted by `get_option_points`. -/
def countNbrs (g : Grid) (c : Pos) : ℕ :=
  (countDirs.filter (fun d =>
    is_valid_loc g (c.1 + d.1, c.2 + d.2) && ! (cellAt g (c.1 + d.1, c.2 + d.2) == '#'))).length

/-- Embedding of `get_option_points`: start, finish, then every non-wall
cell with at least three passable neighbours, in row-major scan order. -/
def get_option_points (g : Grid) (s f : Pos) : List Pos :=
  [s, f] ++ (List.range (rowCount g)).flatMap (fun (x : ℕ) =>
    (List.range (colCount g)).filterMap (fun (y : ℕ) =>
      if cellAt g ((x : ℤ), (y : ℤ)) ≠ '#' ∧ 3 ≤ countNbrs g ((x : ℤ), (y : ℤ)) then
        some ((x : ℤ), (y : ℤ))
      else none))

/-- Inner dictionary of a graph node: neighbour ↦ edge weight. -/
abbrev Adj := List (Pos × ℤ)

/-- The graph type of the source: `Dict[Tuple, Dict[Tuple, int]]`. -/
abbrev Graph := List (Pos × Adj)

/-- Dictionary lookup in an adjacency list (first matching key). -/
def lookupW (a : Adj) (k : Pos) : Option ℤ :=
  (a.find? (fun kv => kv.1 = k)).map (fun kv => kv.2)

/-- Dictionary lookup in a graph (first matching key). -/
def lookupAdj (g : Graph) (k : Pos) : Option Adj :=
  (g.find? (fun kv => kv.1 = k)).map (fun kv => kv.2)

/-- Dictionary update `a[k] = w`: overwrite in place or append. -/
def insertW (a : Adj) (k : Pos) (w : ℤ) : Adj :=
  if a.any (fun kv => kv.1 = k) then
    a.map (fun kv => if kv.1 = k then (k, w) else kv)
  else a ++ [(k, w)]

/-- Dictionary update `g[k] = ad`: overwrite in place or append. -/
def insertA (g : Graph) (k : Pos) (ad : Adj) : Graph :=
  if g.any (fun kv => kv.1 = k) then
    g.map (fun kv => if kv.1 = k then (k, ad) else kv)
  else g ++ [(k, ad)]

/-- Weight of the edge `a → b`: `graph[a][b]`. -/
def edgeW (g : Graph) (a b : Pos) : Option ℤ :=
  (lookupAdj g a).bind (fun ad => lookupW ad b)

/-- Keys of the graph dictionary. -/
def gkeys (g : Graph) : List Pos := g.map (fun kv => kv.1)

/-- The `graph = {p: {} for p in points}` initialisation. -/
def initGraph (points : List Pos) : Graph :=
  points.foldl (fun g q => insertA g q []) []

/-- The `graph[(sx, sy)][(nx, ny)] = steps` update of `build_graph`. -/
def recordEdge (graph : Graph) (s t : Pos) (steps : ℤ) : Graph :=
  insertA graph s (insertW ((lookupAdj graph s).getD []) t steps)

/-- One pass of the `for xx, yy in ...` push loop of `build_graph`:
unseen next cells are pushed (stack top is the list head, matching the
`append`/`pop` end of the Python list) and marked seen. -/
def pushNbrs (steps : ℤ) (nbrs : List Pos) (st : List (ℤ × Pos)) (seen : List Pos) :
    List (ℤ × Pos) × List Pos :=
  nbrs.foldl (fun acc n => if n ∈ acc.2 then acc else ((steps + 1, n) :: acc.1, n :: acc.2))
    (st, seen)

/-- The `while stack:` loop of `build_graph` for one source node `s`,
with explicit fuel (the source loop terminates because every push is of
a freshly seen cell; `buildFuel` below always suffices). -/
def walkLoop (g : Grid) (p : ℕ) (points : List Pos) (s : Pos) :
    ℕ → List (ℤ × Pos) → List Pos → Graph → Graph
  | 0, _, _, graph => graph
  | _ + 1, [], _, graph => graph
  | fuel + 1, (steps, n) :: st, seen, graph =>
    if steps ≠ 0 ∧ n ∈ points then
      walkLoop g p points s fuel st seen (recordEdge graph s n steps)
    else
      let nbrs := if p = 1 then get_nxt_cells_p1 g n else get_nxt_cells_p2 g n
      let pushed := pushNbrs steps nbrs st seen
      walkLoop g p points s fuel pushed.1 pushed.2 graph

/-- Fuel that dominates the walk's iteration count on its grid. -/
def buildFuel (g : Grid) : ℕ := rowCount g * colCount g + 2

/-- Embedding of `build_graph`. -/
def build_graph (g : Grid) (points : List Pos) (p : ℕ) : Graph :=
  points.foldl (fun graph s => walkLoop g p points s (buildFuel g) [(0, s)] [s] graph)
    (initGraph points)

/-- The `visited.add(curr)` of the source (`visited` as a list-set). -/
def insertSet (v : List Pos) (c : Pos) : List Pos := if c ∈ v then v else c :: v

/-- The `for nxt in graph[curr]:` loop of `dfs`, threading the mutable
visited set and the running maximum `max_steps`.  The recursion of the
enclosing `dfs` is abstracted as the `step` argument. -/
def dfsFold (step : Pos → List Pos → Option (WithBot ℤ × List Pos)) :
    List (Pos × ℤ) → WithBot ℤ → List Pos → Option (WithBot ℤ × List Pos)
  | [], mx, vis => some (mx, vis)
  | kv :: rest, mx, vis =>
    if kv.1 ∈ vis then dfsFold step rest mx vis
    else
      match step kv.1 vis with
      | none => none
      | some rv => dfsFold step rest (max mx (rv.1 + (kv.2 : WithBot ℤ))) rv.2

/-- The recursive `dfs` inside `get_max_steps`.  `none` models an
uncaught exception (`KeyError` on `graph[curr]`) or exhausted fuel;
`some (r, v)` returns the maximum (`⊥` for `-float("inf")`) together
with the visited set after the `visited.remove(curr)` backtrack. -/
def dfs (graph : Graph) (fin : Pos) : ℕ → Pos → List Pos → Option (WithBot ℤ × List Pos)
  | 0, _, _ => none
  | fuel + 1, curr, visited =>
    if curr = fin then some (0, visited)
    else
      match lookupAdj graph curr with
      | none => none
      | some adj =>
        match dfsFold (fun c v => dfs graph fin fuel c v) adj ⊥ (insertSet visited curr) with
        | none => none
        | some mv => some (mv.1, mv.2.erase curr)

/-- Fuel for `dfs`: the recursion depth of the source is bounded by the
number of graph keys, because every level inserts a fresh key into the
visited set. -/
def dfsFuel (graph : Graph) : ℕ := graph.length + 1

/-- Embedding of `get_max_steps`: run `dfs` from the start with a fresh
empty visited set. -/
def get_max_steps (graph : Graph) (start fin : Pos) : Option (WithBot ℤ) :=
  (dfs graph fin (dfsFuel graph) start []).map (fun rv => rv.1)

/-- Well-formed graph dictionary: outer keys are unique, each adjacency
dictionary has unique keys, and every edge target is itself a key (the
shape every Python dict produced by `build_graph` has). -/
def WFGraph (g : Graph) : Prop :=
  (gkeys g).Nodup ∧ (∀ kv ∈ g, (kv.2.map (fun e => e.1)).Nodup) ∧
    ∀ kv ∈ g, ∀ e ∈ kv.2, e.1 ∈ gkeys g

instance (g : Graph) : Decidable (WFGraph g) := by
  unfold WFGraph; infer_instance

/-- Simple path through a graph: `GPath g a c p w` says `p` is a
duplicate-free node sequence from `a` to `c` whose consecutive pairs are
edges of `g`, and `w` is the sum of the traversed edge weights. -/
inductive GPath (g : Graph) : Pos → Pos → List Pos → ℤ → Prop
  | single (a : Pos) : GPath g a a [a] 0
  | cons (a b c : Pos) (w ws : ℤ) (p : List Pos) (hw : edgeW g a b = some w)
      (hp : GPath g b c p ws) (ha : a ∉ p) : GPath g a c (a :: p) (w + ws)

/-- `MaxOf S r` says `r` is the maximum of the weight set `S` in
`WithBot ℤ`: an upper bound that is attained whenever it is finite
(hence `r = ⊥` exactly when `S` is empty). -/
def MaxOf (S : Set ℤ) (r : WithBot ℤ) : Prop :=
  (∀ w ∈ S, (w : WithBot ℤ) ≤ r) ∧ ∀ z : ℤ, r = (z : ℤ) → z ∈ S

/-- The set of weights of simple `a → c` paths of `g` that avoid every
node of `visited`. -/
def PathWeights (g : Graph) (a c : Pos) (visited : List Pos) : Set ℤ :=
  {w | ∃ p, GPath g a c p w ∧ ∀ v ∈ visited, v ∉ p}

/-- Weight contributions of the edges of an adjacency-list suffix `L`
during the `for nxt in graph[curr]` loop of `dfs`: each edge with an
unvisited target contributes its weight plus the weight of a simple
onward path from the target that avoids `vis1`. -/
def edgePaths (graph : Graph) (fin : Pos) (vis1 : List Pos) (L : List (Pos × ℤ)) : Set ℤ :=
  {u | ∃ e ∈ L, e.1 ∉ vis1 ∧ ∃ ws ∈ PathWeights graph e.1 fin vis1, u = e.2 + ws}

/-- A non-empty free-mode walk through the grid from one cell to
another whose interior cells are not nodes: the reachability notion
that the corridor walk of `build_graph` explores in part-2 mode. -/
inductive Walkable (grid : Grid) (points : List Pos) : Pos → Pos → Prop
  | step (c d : Pos) (h : d ∈ get_nxt_cells_p2 grid c) : Walkable grid points c d
  | trans (c d e : Pos) (h : d ∈ get_nxt_cells_p2 grid c) (hd : d ∉ points)
      (ht : Walkable grid points d e) : Walkable grid points c e

/-- Processed-cell property of the corridor walk from source `s`: a
cell that the walk has finished with either has all its free-mode
neighbours seen (when the walk expanded it — it is not a node, or it
is the source itself) or has been recorded as an edge target of `s`. -/
def WalkDone (grid : Grid) (points : List Pos) (s : Pos) (seen : List Pos)
    (graph : Graph) (c : Pos) : Prop :=
  ((c ∉ points ∨ c = s) → ∀ nb ∈ get_nxt_cells_p2 grid c, nb ∈ seen) ∧
    (c ∈ points → c ≠ s → ∃ w, edgeW graph s c = some w)

/-- The finitely many in-bounds positions of a grid. -/
def validCells (grid : Grid) : Finset Pos :=
  (Finset.range (rowCount grid) ×ˢ Finset.range (colCount grid)).image
    (fun xy => ((xy.1 : ℤ), (xy.2 : ℤ)))

/-- Invariant of the graph dictionary maintained by `build_graph`:
every point is a key, the outer keys are unique, every adjacency
dictionary has unique keys, and every edge target is a point. -/
def BuildInv (points : List Pos) (graph : Graph) : Prop :=
  (∀ a ∈ points, a ∈ gkeys graph) ∧ (gkeys graph).Nodup ∧
    (∀ kv ∈ graph, (kv.2.map (fun e => e.1)).Nodup) ∧
    ∀ kv ∈ graph, ∀ e ∈ kv.2, e.1 ∈ points

/-- Concrete 12×12 maze used as a counterexample input.  Two junctions
`(6,1)` and `(8,6)` are joined by two disjoint corridors: a short one of
7 steps through the `<` slope cell at `(8,3)` and a long one of 11
steps, while `(0,1)` is the entry and `(11,6)` the exit. -/
def exGrid : Grid :=
  [ "#.##########".toList,
    "#.##########".toList,
    "#.##########".toList,
    "#.##########".toList,
    "#.##########".toList,
    "#.###...####".toList,
    "#.....#.####".toList,
    "#.####..####".toList,
    "#..<...#####".toList,
    "######.#####".toList,
    "######.#####".toList,
    "######.#####".toList ]

/-- Entry of `exGrid`, as the source pipeline computes it. -/
def exStart : Pos := (get_start_finish exGrid).1

/-- Exit of `exGrid`, as the source pipeline computes it. -/
def exFinish : Pos := (get_start_finish exGrid).2

/-- Node list of `exGrid`, as the source pipeline computes it. -/
def exPoints : List Pos := get_option_points exGrid exStart exFinish

/-! ### Basic characterisations -/

/-- Membership in the open-neighbour list: exactly the in-bounds
non-wall orthogonal neighbours. -/
theorem mem_openNbrs {g : Grid} {c n : Pos} :
    n ∈ openNbrs g c ↔ ∃ d ∈ nbrDirs, n = (c.1 + d.1, c.2 + d.2) ∧
      is_valid_loc g n = true ∧ cellAt g n ≠ '#' := by
  simp only [openNbrs, List.mem_filterMap]
  constructor
  · rintro ⟨d, hd, hf⟩
    by_cases h : is_valid_loc g (c.1 + d.1, c.2 + d.2) = true ∧ cellAt g (c.1 + d.1, c.2 + d.2) ≠ '#'
    · rw [if_pos h] at hf
      cases hf
      exact ⟨d, hd, rfl, h.1, h.2⟩
    · rw [if_neg h] at hf
      cases hf
  · rintro ⟨d, hd, rfl, hv, hw⟩
    exact ⟨d, hd, by rw [if_pos ⟨hv, hw⟩]⟩

/-- Full characterisation of `List.findIdx?` (at start index 0): either
no element satisfies the predicate, or the result is the first index
that does. -/
theorem findIdx?_char (p : Char → Bool) :
    ∀ l : List Char,
      (l.findIdx? p = none ∧ ∀ ch ∈ l, p ch = false) ∨
      ∃ k, l.findIdx? p = some k ∧ k < l.length ∧ p (l.getD k '#') = true ∧
        ∀ j, j < k → p (l.getD j '#') = false
  | [] => Or.inl ⟨rfl, by simp⟩
  | a :: l => by
    by_cases hp : p a = true
    · right
      exact ⟨0, by simp [List.findIdx?_cons, hp], by simp, by simpa using hp, by omega⟩
    · rcases findIdx?_char p l with ⟨h1, h2⟩ | ⟨k, h1, h2, h3, h4⟩
      · left
        refine ⟨?_, ?_⟩
        · simp [List.findIdx?_cons, hp, List.findIdx?_succ, h1]
        · intro ch hch
          rcases List.mem_cons.mp hch with rfl | h
          · simpa using hp
          · exact h2 ch h
      · right
        refine ⟨k + 1, ?_, by simpa using h2, by simpa using h3, ?_⟩
        · simp [List.findIdx?_cons, hp, List.findIdx?_succ, h1]
        · intro j hj
          match j with
          | 0 => simpa using hp
          | j + 1 => exact (by simpa using h4 j (by omega))

/-! ### Dictionary lemmas -/

/-- A successful graph lookup returns an actual entry. -/
theorem lookupAdj_mem {g : Graph} {k : Pos} {adj : Adj} (h : lookupAdj g k = some adj) :
    (k, adj) ∈ g := by
  rw [lookupAdj] at h
  rcases Option.map_eq_some'.mp h with ⟨kv, hfind, hkv⟩
  have h1 : kv.1 = k := by simpa using List.find?_some hfind
  have h2 := List.mem_of_find?_eq_some hfind
  cases kv
  cases h1
  cases hkv
  exact h2

/-- Every key of the graph dictionary has a successful lookup. -/
theorem lookupAdj_isSome {g : Graph} {k : Pos} (h : k ∈ gkeys g) :
    ∃ adj, lookupAdj g k = some adj := by
  rcases List.mem_map.mp h with ⟨kv, hkv, hk⟩
  rw [lookupAdj]
  cases hfind : g.find? (fun kv => kv.1 = k) with
  | some kv' => exact ⟨kv'.2, rfl⟩
  | none =>
    exfalso
    have := List.find?_eq_none.mp hfind kv hkv
    simp [hk] at this

/-- A successful adjacency lookup returns an actual entry. -/
theorem lookupW_mem {adj : Adj} {b : Pos} {w : ℤ} (h : lookupW adj b = some w) :
    (b, w) ∈ adj := by
  rw [lookupW] at h
  rcases Option.map_eq_some'.mp h with ⟨kv, hfind, hkv⟩
  have h1 : kv.1 = b := by simpa using List.find?_some hfind
  have h2 := List.mem_of_find?_eq_some hfind
  cases kv
  cases h1
  cases hkv
  exact h2

/-- With unique keys, membership determines the adjacency lookup. -/
theorem lookupW_of_mem {adj : Adj} {b : Pos} {w : ℤ}
    (hnd : (adj.map (fun e => e.1)).Nodup) (h : (b, w) ∈ adj) :
    lookupW adj b = some w := by
  induction adj with
  | nil => cases h
  | cons e rest ihr =>
    rw [List.map_cons, List.nodup_cons] at hnd
    by_cases hb : e.1 = b
    · rcases List.mem_cons.mp h with rfl | hmem
      · simp [lookupW, List.find?_cons_of_pos]
      · exfalso
        exact hnd.1 (hb ▸ List.mem_map.mpr ⟨_, hmem, rfl⟩)
    · rcases List.mem_cons.mp h with rfl | hmem
      · exact absurd rfl hb
      · have : lookupW (e :: rest) b = lookupW rest b := by
          rw [lookupW, lookupW, List.find?_cons_of_neg]
          simpa using hb
        rw [this]
        exact ihr hnd.2 hmem

/-- An edge decomposes into the two dictionary lookups. -/
theorem edgeW_some {graph : Graph} {a b : Pos} {w : ℤ} (h : edgeW graph a b = some w) :
    ∃ adj, lookupAdj graph a = some adj ∧ (b, w) ∈ adj := by
  rw [edgeW] at h
  rcases Option.bind_eq_some.mp h with ⟨adj, hadj, hw⟩
  exact ⟨adj, hadj, lookupW_mem hw⟩

/-- In a well-formed graph every edge target is a key. -/
theorem edgeW_target_mem {graph : Graph} (hWF : WFGraph graph) {a b : Pos} {w : ℤ}
    (h : edgeW graph a b = some w) : b ∈ gkeys graph := by
  rcases edgeW_some h with ⟨adj, hadj, hmem⟩
  exact hWF.2.2 _ (lookupAdj_mem hadj) _ hmem

/-- Build an edge from a membership fact, given well-formedness. -/
theorem edgeW_of_mem {graph : Graph} (hWF : WFGraph graph) {a b : Pos} {w : ℤ} {adj : Adj}
    (hadj : lookupAdj graph a = some adj) (h : (b, w) ∈ adj) :
    edgeW graph a b = some w := by
  rw [edgeW, hadj, Option.some_bind]
  exact lookupW_of_mem (hWF.2.1 _ (lookupAdj_mem hadj)) h

/-! ### Dictionary update lemmas -/

/-- Key search succeeds on a dictionary iff the key occurs. -/
theorem dict_any_iff {β : Type} (k : Pos) (d : List (Pos × β)) :
    d.any (fun kv => kv.1 = k) = true ↔ k ∈ d.map (fun kv => kv.1) := by
  rw [List.any_eq_true]
  constructor
  · rintro ⟨kv, hm, hp⟩
    exact List.mem_map.mpr ⟨kv, hm, by simpa using hp⟩
  · intro h
    rcases List.mem_map.mp h with ⟨kv, hm, rfl⟩
    exact ⟨kv, hm, by simp⟩

/-- Finding the overwritten key after an in-place dictionary update. -/
theorem dict_find_map_self {β : Type} (k : Pos) (v : β) :
    ∀ d : List (Pos × β), d.any (fun kv => kv.1 = k) = true →
      (d.map (fun kv => if kv.1 = k then (k, v) else kv)).find? (fun kv => kv.1 = k) =
        some (k, v)
  | [], h => by simp at h
  | kv :: rest, h => by
    by_cases hk : kv.1 = k
    · simp [hk]
    · have hrest : rest.any (fun kv => kv.1 = k) = true := by
        simpa [List.any_cons, hk] using h
      rw [List.map_cons, if_neg hk, List.find?_cons_of_neg _ (by simpa using hk)]
      exact dict_find_map_self k v rest hrest

/-- Finding the appended key when it was previously absent. -/
theorem dict_find_append_self {β : Type} (k : Pos) (v : β) :
    ∀ d : List (Pos × β), (∀ kv ∈ d, ¬(kv.1 = k)) →
      (d ++ [(k, v)]).find? (fun kv => kv.1 = k) = some (k, v)
  | [], _ => by simp
  | kv :: rest, h => by
    rw [List.cons_append,
      List.find?_cons_of_neg _ (by simpa using h kv (List.mem_cons_self _ _))]
    exact dict_find_append_self k v rest (fun e he => h e (List.mem_cons_of_mem _ he))

/-- An in-place update of one key does not change the search for
another key. -/
theorem dict_find_map_other {β : Type} (k q : Pos) (v : β) (hqk : q ≠ k) :
    ∀ d : List (Pos × β),
      (d.map (fun kv => if kv.1 = k then (k, v) else kv)).find? (fun kv => kv.1 = q) =
        d.find? (fun kv => kv.1 = q)
  | [] => rfl
  | kv :: rest => by
    by_cases hk : kv.1 = k
    · rw [List.map_cons, if_pos hk,
        List.find?_cons_of_neg _ (by simpa using Ne.symm hqk),
        List.find?_cons_of_neg _ (by simp [hk]; exact Ne.symm hqk)]
      exact dict_find_map_other k q v hqk rest
    · by_cases hq : kv.1 = q
      · rw [List.map_cons, if_neg hk, List.find?_cons_of_pos _ (by simpa using hq),
          List.find?_cons_of_pos _ (by simpa using hq)]
      · rw [List.map_cons, if_neg hk, List.find?_cons_of_neg _ (by simpa using hq),
          List.find?_cons_of_neg _ (by simpa using hq)]
        exact dict_find_map_other k q v hqk rest

/-- Appending an entry for one key does not change the search for
another key. -/
theorem dict_find_append_other {β : Type} (q : Pos) (e : Pos × β) (hne : ¬(e.1 = q)) :
    ∀ d : List (Pos × β),
      (d ++ [e]).find? (fun kv => kv.1 = q) = d.find? (fun kv => kv.1 = q)
  | [] => by
    rw [List.nil_append, List.find?_cons_of_neg _ (by simpa using hne), List.find?_nil]
  | kv :: rest => by
    by_cases hq : kv.1 = q
    · rw [List.cons_append, List.find?_cons_of_pos _ (by simpa using hq),
        List.find?_cons_of_pos _ (by simpa using hq)]
    · rw [List.cons_append, List.find?_cons_of_neg _ (by simpa using hq),
        List.find?_cons_of_neg _ (by simpa using hq)]
      exact dict_find_append_other q e hne rest

/-- Looking up the key just written by `insertW`. -/
theorem lookupW_insertW_self (a : Adj) (k : Pos) (w : ℤ) :
    lookupW (insertW a k w) k = some w := by
  rw [insertW, lookupW]
  by_cases hany : a.any (fun kv => kv.1 = k) = true
  · rw [if_pos hany, dict_find_map_self k w a hany]
    rfl
  · rw [if_neg hany]
    have hall : ∀ kv ∈ a, ¬(kv.1 = k) := by
      intro kv hm hk
      exact hany (List.any_eq_true.mpr ⟨kv, hm, by simpa using hk⟩)
    rw [dict_find_append_self k w a hall]
    rfl

/-- Looking up another key after an `insertW`. -/
theorem lookupW_insertW_other (a : Adj) (k : Pos) (w : ℤ) (q : Pos) (hqk : q ≠ k) :
    lookupW (insertW a k w) q = lookupW a q := by
  rw [insertW, lookupW, lookupW]
  by_cases hany : a.any (fun kv => kv.1 = k) = true
  · rw [if_pos hany, dict_find_map_other k q w hqk a]
  · rw [if_neg hany, dict_find_append_other q (k, w) (by simpa using Ne.symm hqk) a]

/-- Looking up the key just written by `insertA`. -/
theorem lookupAdj_insertA_self (g : Graph) (k : Pos) (ad : Adj) :
    lookupAdj (insertA g k ad) k = some ad := by
  rw [insertA, lookupAdj]
  by_cases hany : g.any (fun kv => kv.1 = k) = true
  · rw [if_pos hany, dict_find_map_self k ad g hany]
    rfl
  · rw [if_neg hany]
    have hall : ∀ kv ∈ g, ¬(kv.1 = k) := by
      intro kv hm hk
      exact hany (List.any_eq_true.mpr ⟨kv, hm, by simpa using hk⟩)
    rw [dict_find_append_self k ad g hall]
    rfl

/-- Looking up another key after an `insertA`. -/
theorem lookupAdj_insertA_other (g : Graph) (k : Pos) (ad : Adj) (q : Pos) (hqk : q ≠ k) :
    lookupAdj (insertA g k ad) q = lookupAdj g q := by
  rw [insertA, lookupAdj, lookupAdj]
  by_cases hany : g.any (fun kv => kv.1 = k) = true
  · rw [if_pos hany, dict_find_map_other k q ad hqk g]
  · rw [if_neg hany, dict_find_append_other q (k, ad) (by simpa using Ne.symm hqk) g]

/-- Entries after a dictionary insert: the written entry or an old one. -/
theorem dict_mem_insert {β : Type} {d : List (Pos × β)} {k : Pos} {v : β} {kv : Pos × β}
    (h : kv ∈ (if d.any (fun kv => kv.1 = k) then
        d.map (fun kv => if kv.1 = k then (k, v) else kv)
      else d ++ [(k, v)])) :
    kv = (k, v) ∨ kv ∈ d := by
  by_cases hany : d.any (fun kv => kv.1 = k) = true
  · rw [if_pos hany] at h
    rcases List.mem_map.mp h with ⟨kv0, h0, heq⟩
    by_cases hk : kv0.1 = k
    · rw [if_pos hk] at heq
      exact Or.inl heq.symm
    · rw [if_neg hk] at heq
      exact Or.inr (heq ▸ h0)
  · rw [if_neg hany] at h
    rcases List.mem_append.mp h with h0 | h0
    · exact Or.inr h0
    · exact Or.inl (List.mem_singleton.mp h0)

/-- Keys after a dictionary insert: the written key joins the key list. -/
theorem dict_keys_insert {β : Type} (d : List (Pos × β)) (k : Pos) (v : β) (a : Pos) :
    a ∈ (if d.any (fun kv => kv.1 = k) then
        d.map (fun kv => if kv.1 = k then (k, v) else kv)
      else d ++ [(k, v)]).map (fun kv => kv.1) ↔
      a = k ∨ a ∈ d.map (fun kv => kv.1) := by
  by_cases hany : d.any (fun kv => kv.1 = k) = true
  · rw [if_pos hany]
    have hmap : (d.map (fun kv => if kv.1 = k then (k, v) else kv)).map (fun kv => kv.1) =
        d.map (fun kv => kv.1) := by
      rw [List.map_map]
      refine List.map_congr_left ?_
      intro kv _
      by_cases hk : kv.1 = k
      · simp [hk]
      · simp [hk]
    rw [hmap]
    constructor
    · exact Or.inr
    · rintro (rfl | h)
      · exact (dict_any_iff a d).mp hany
      · exact h
  · rw [if_neg hany, List.map_append]
    rw [List.mem_append]
    simp only [List.map_cons, List.map_nil, List.mem_singleton]
    tauto

/-- Key uniqueness is preserved by a dictionary insert. -/
theorem dict_keys_nodup_insert {β : Type} (d : List (Pos × β)) (k : Pos) (v : β)
    (h : (d.map (fun kv => kv.1)).Nodup) :
    ((if d.any (fun kv => kv.1 = k) then
        d.map (fun kv => if kv.1 = k then (k, v) else kv)
      else d ++ [(k, v)]).map (fun kv => kv.1)).Nodup := by
  by_cases hany : d.any (fun kv => kv.1 = k) = true
  · rw [if_pos hany]
    have hmap : (d.map (fun kv => if kv.1 = k then (k, v) else kv)).map (fun kv => kv.1) =
        d.map (fun kv => kv.1) := by
      rw [List.map_map]
      refine List.map_congr_left ?_
      intro kv _
      by_cases hk : kv.1 = k
      · simp [hk]
      · simp [hk]
    rw [hmap]
    exact h
  · rw [if_neg hany, List.map_append]
    rw [List.nodup_append]
    refine ⟨h, by simp, ?_⟩
    intro a ha hb
    simp only [List.map_cons, List.map_nil, List.mem_singleton] at hb
    subst hb
    exact hany ((dict_any_iff a d).mpr ha)


/-- A path starts at its source. -/
theorem gpath_first {g : Graph} {a c : Pos} {p : List Pos} {w : ℤ} (h : GPath g a c p w) :
    ∃ q, p = a :: q := by
  cases h with
  | single => exact ⟨[], rfl⟩
  | cons a b c w ws p hw hp ha => exact ⟨p, rfl⟩

/-- A path contains its destination. -/
theorem gpath_end_mem {g : Graph} {a c : Pos} {p : List Pos} {w : ℤ} (h : GPath g a c p w) :
    c ∈ p := by
  induction h with
  | single a => exact List.mem_singleton_self a
  | cons a b c w ws p hw hp ha ih => exact List.mem_cons_of_mem a ih

/-- The only simple path from the destination to itself is trivial. -/
theorem gpath_self {g : Graph} {fin : Pos} {p : List Pos} {w : ℤ} (h : GPath g fin fin p w) :
    p = [fin] ∧ w = 0 := by
  cases h with
  | single => exact ⟨rfl, rfl⟩
  | cons a b c w ws p hw hp ha => exact absurd (gpath_end_mem hp) ha

/-- Paths are preserved when every edge of the smaller graph is an edge
of the larger one with the same weight. -/
theorem gpath_mono {g1 g2 : Graph} {a c : Pos} {p : List Pos} {w : ℤ}
    (hsub : ∀ kv ∈ g1, ∀ e ∈ kv.2, edgeW g2 kv.1 e.1 = some e.2)
    (h : GPath g1 a c p w) : GPath g2 a c p w := by
  induction h with
  | single a => exact GPath.single a
  | cons a b c w ws p hw hp ha ih =>
    rcases edgeW_some hw with ⟨adj, hadj, hmem⟩
    exact GPath.cons a b c w ws p (hsub _ (lookupAdj_mem hadj) _ hmem) ih ha

/-! ### Maximum lemmas -/

/-- The empty weight set has maximum `⊥`. -/
theorem maxOf_empty : MaxOf (∅ : Set ℤ) ⊥ :=
  ⟨fun _ hw => absurd hw (Set.not_mem_empty _), fun _ hz => absurd hz (WithBot.bot_ne_coe)⟩

/-- A singleton weight set has itself as maximum. -/
theorem maxOf_singleton (c : ℤ) : MaxOf ({c} : Set ℤ) ((c : ℤ) : WithBot ℤ) := by
  constructor
  · intro w hw
    rcases hw with rfl
    exact le_rfl
  · intro z hz
    have : c = z := by exact_mod_cast hz
    simp [this]

/-- Maxima combine over unions by `max`. -/
theorem maxOf_union {S1 S2 : Set ℤ} {r1 r2 : WithBot ℤ}
    (h1 : MaxOf S1 r1) (h2 : MaxOf S2 r2) : MaxOf (S1 ∪ S2) (max r1 r2) := by
  constructor
  · rintro w (hw | hw)
    · exact le_trans (h1.1 w hw) (le_max_left _ _)
    · exact le_trans (h2.1 w hw) (le_max_right _ _)
  · intro z hz
    rcases max_choice r1 r2 with hm | hm
    · exact Or.inl (h1.2 z (hm ▸ hz))
    · exact Or.inr (h2.2 z (hm ▸ hz))

/-- Shifting every element of a weight set by a constant shifts the
maximum. -/
theorem maxOf_add {S : Set ℤ} {r : WithBot ℤ} (c : ℤ) (h : MaxOf S r) :
    MaxOf {x | ∃ s ∈ S, x = c + s} (r + ((c : ℤ) : WithBot ℤ)) := by
  constructor
  · rintro x ⟨s, hs, rfl⟩
    have hsr : ((s : ℤ) : WithBot ℤ) ≤ r := h.1 s hs
    calc ((c + s : ℤ) : WithBot ℤ) = ((s : ℤ) : WithBot ℤ) + ((c : ℤ) : WithBot ℤ) := by
          rw [add_comm c s]; exact WithBot.coe_add s c
      _ ≤ r + ((c : ℤ) : WithBot ℤ) := add_le_add_right hsr _
  · intro z hz
    induction r using WithBot.recBotCoe with
    | bot => simp at hz
    | coe a =>
      have ha : a ∈ S := h.2 a rfl
      have : a + c = z := by exact_mod_cast hz
      exact ⟨a, ha, by omega⟩

/-! ### Path-set decompositions -/

/-- From the destination, the avoiding path-weight set is `{0}`. -/
theorem pathWeights_self {graph : Graph} {fin : Pos} {visited : List Pos}
    (hnv : fin ∉ visited) : PathWeights graph fin fin visited = {0} := by
  ext w
  constructor
  · rintro ⟨p, hp, hav⟩
    exact (gpath_self hp).2
  · rintro rfl
    refine ⟨[fin], GPath.single fin, ?_⟩
    intro v hv
    simp only [List.mem_singleton]
    rintro rfl
    exact hnv hv

/-- Away from the destination, avoiding paths decompose along the first
edge: the weight set from `curr` equals the edge-contribution set of
its full adjacency list. -/
theorem pathWeights_decomp {graph : Graph} (hWF : WFGraph graph) {curr fin : Pos}
    {adj : Adj} {visited : List Pos} (hadj : lookupAdj graph curr = some adj)
    (hne : curr ≠ fin) (hcv : curr ∉ visited) :
    PathWeights graph curr fin visited = edgePaths graph fin (curr :: visited) adj := by
  ext u
  constructor
  · rintro ⟨p, hp, hav⟩
    cases hp with
    | single => exact absurd rfl hne
    | cons a b c w ws p hw hpp ha =>
      rcases edgeW_some hw with ⟨adj', hadj', hmem⟩
      rw [hadj'] at hadj
      cases hadj
      have hbp : b ∈ p := (gpath_first hpp).elim (fun q hq => hq ▸ List.mem_cons_self b q)
      refine ⟨(b, w), hmem, ?_, ws, ⟨p, hpp, ?_⟩, rfl⟩
      · intro hb
        rcases List.mem_cons.mp hb with rfl | hbv
        · exact ha hbp
        · exact (hav b hbv) (List.mem_cons_of_mem _ hbp)
      · intro v hv
        rcases List.mem_cons.mp hv with rfl | hvv
        · exact ha
        · intro hvp
          exact (hav v hvv) (List.mem_cons_of_mem _ hvp)
  · rintro ⟨e, hmem, hnv1, ws, ⟨p, hpp, hav1⟩, rfl⟩
    have hcp : curr ∉ p := hav1 curr (List.mem_cons_self _ _)
    have hedge : edgeW graph curr e.1 = some e.2 := edgeW_of_mem hWF hadj hmem
    refine ⟨curr :: p, GPath.cons curr e.1 fin e.2 ws p hedge hpp hcp, ?_⟩
    intro v hv
    simp only [List.mem_cons, not_or]
    exact ⟨fun hvc => hcv (hvc ▸ hv), hav1 v (List.mem_cons_of_mem _ hv)⟩

/-! ### Master correctness of the backtracking search -/

/-- Main invariant of `dfs`: from any current node and visited set
satisfying the source's call invariants, and with enough fuel, `dfs`
succeeds, restores the visited set, and returns exactly the maximum
weight of a simple path to the destination avoiding the visited set. -/
theorem dfs_spec (graph : Graph) (fin : Pos) (hWF : WFGraph graph) :
    ∀ fuel : ℕ, ∀ visited : List Pos, ∀ curr : Pos,
      (curr ∈ gkeys graph ∨ curr = fin) →
      (∀ v ∈ visited, v ∈ gkeys graph) →
      visited.Nodup → curr ∉ visited →
      (gkeys graph).length < fuel + visited.length →
      ∃ r, dfs graph fin fuel curr visited = some (r, visited) ∧
        MaxOf (PathWeights graph curr fin visited) r := by
  intro fuel
  induction fuel with
  | zero =>
    intro visited curr hcurr hvk hnd hcv harith
    exfalso
    have hle : visited.length ≤ (gkeys graph).length :=
      (List.subperm_of_subset hnd (fun x hx => hvk x hx)).length_le
    omega
  | succ fuel ih =>
    intro visited curr hcurr hvk hnd hcv harith
    by_cases hfin : curr = fin
    · subst hfin
      refine ⟨0, by simp [dfs], ?_⟩
      rw [pathWeights_self hcv]
      simpa using maxOf_singleton 0
    · have hkey : curr ∈ gkeys graph := hcurr.resolve_right hfin
      obtain ⟨adj, hadj⟩ := lookupAdj_isSome hkey
      have hadjmem := lookupAdj_mem hadj
      have vis1eq : insertSet visited curr = curr :: visited := by
        rw [insertSet, if_neg hcv]
      have hfold : ∀ L : List (Pos × ℤ), (∀ e ∈ L, e ∈ adj) →
          ∀ (mx : WithBot ℤ) (S : Set ℤ), MaxOf S mx →
          ∃ r, dfsFold (fun c v => dfs graph fin fuel c v) L mx (curr :: visited) =
              some (r, curr :: visited) ∧
            MaxOf (S ∪ edgePaths graph fin (curr :: visited) L) r := by
        intro L
        induction L with
        | nil =>
          intro _ mx S hS
          refine ⟨mx, rfl, ?_⟩
          have hempty : edgePaths graph fin (curr :: visited) [] = ∅ := by
            ext u
            simp [edgePaths]
          rw [hempty, Set.union_empty]
          exact hS
        | cons e rest ihL =>
          intro hsub mx S hS
          by_cases hev : e.1 ∈ curr :: visited
          · rcases ihL (fun x hx => hsub x (List.mem_cons_of_mem _ hx)) mx S hS with ⟨r, hr, hm⟩
            have hskip : dfsFold (fun c v => dfs graph fin fuel c v) (e :: rest) mx
                (curr :: visited) =
                dfsFold (fun c v => dfs graph fin fuel c v) rest mx (curr :: visited) := by
              simp only [dfsFold]
              rw [if_pos hev]
            refine ⟨r, by rw [hskip]; exact hr, ?_⟩
            have hset : S ∪ edgePaths graph fin (curr :: visited) (e :: rest) =
                S ∪ edgePaths graph fin (curr :: visited) rest := by
              ext u
              simp only [Set.mem_union, edgePaths, Set.mem_setOf_eq, List.mem_cons]
              constructor
              · rintro (h | ⟨e', (rfl | he'), hn, hw⟩)
                · exact Or.inl h
                · exact absurd (List.mem_cons.mp hev) hn
                · exact Or.inr ⟨e', he', hn, hw⟩
              · rintro (h | ⟨e', he', hn, hw⟩)
                · exact Or.inl h
                · exact Or.inr ⟨e', Or.inr he', hn, hw⟩
            rw [hset]
            exact hm
          · have hek : e.1 ∈ gkeys graph :=
              hWF.2.2 _ hadjmem _ (hsub e (List.mem_cons_self _ _))
            have hvk1 : ∀ v ∈ curr :: visited, v ∈ gkeys graph := by
              intro v hv
              rcases List.mem_cons.mp hv with rfl | hv
              · exact hkey
              · exact hvk v hv
            have hnd1 : (curr :: visited).Nodup := List.nodup_cons.mpr ⟨hcv, hnd⟩
            rcases ih (curr :: visited) e.1 (Or.inl hek) hvk1 hnd1 hev
              (by simp only [List.length_cons]; omega) with ⟨rt, hdfs, hmt⟩
            have hstep : dfsFold (fun c v => dfs graph fin fuel c v) (e :: rest) mx
                (curr :: visited) =
                dfsFold (fun c v => dfs graph fin fuel c v) rest
                  (max mx (rt + ((e.2 : ℤ) : WithBot ℤ))) (curr :: visited) := by
              simp only [dfsFold]
              rw [if_neg hev, hdfs]
            have hS' : MaxOf (S ∪ {x | ∃ s ∈ PathWeights graph e.1 fin (curr :: visited),
                x = e.2 + s}) (max mx (rt + ((e.2 : ℤ) : WithBot ℤ))) :=
              maxOf_union hS (maxOf_add e.2 hmt)
            rcases ihL (fun x hx => hsub x (List.mem_cons_of_mem _ hx)) _ _ hS' with ⟨r, hr, hm⟩
            refine ⟨r, by rw [hstep]; exact hr, ?_⟩
            have hset : S ∪ edgePaths graph fin (curr :: visited) (e :: rest) =
                (S ∪ {x | ∃ s ∈ PathWeights graph e.1 fin (curr :: visited), x = e.2 + s}) ∪
                  edgePaths graph fin (curr :: visited) rest := by
              ext u
              simp only [Set.mem_union, edgePaths, Set.mem_setOf_eq, List.mem_cons]
              constructor
              · rintro (h | ⟨e', (rfl | he'), hn, ws, hws, rfl⟩)
                · exact Or.inl (Or.inl h)
                · exact Or.inl (Or.inr ⟨ws, hws, rfl⟩)
                · exact Or.inr ⟨e', he', hn, ws, hws, rfl⟩
              · rintro ((h | ⟨ws, hws, rfl⟩) | ⟨e', he', hn, ws, hws, rfl⟩)
                · exact Or.inl h
                · exact Or.inr ⟨e, Or.inl rfl, fun hc => hev (List.mem_cons.mpr hc), ws, hws, rfl⟩
                · exact Or.inr ⟨e', Or.inr he', hn, ws, hws, rfl⟩
            rw [hset]
            exact hm
      rcases hfold adj (fun e he => he) ⊥ ∅ maxOf_empty with ⟨r, hr, hm⟩
      refine ⟨r, ?_, ?_⟩
      · have hdfseq : dfs graph fin (fuel + 1) curr visited =
            match dfsFold (fun c v => dfs graph fin fuel c v) adj ⊥ (curr :: visited) with
            | none => none
            | some mv => some (mv.1, mv.2.erase curr) := by
          conv_lhs => rw [dfs]
          rw [if_neg hfin, hadj, vis1eq]
        rw [hdfseq, hr]
        show some (r, (curr :: visited).erase curr) = some (r, visited)
        rw [List.erase_cons_head]
      · rw [pathWeights_decomp hWF hadj hfin hcv]
        rw [Set.empty_union] at hm
        exact hm

/-! ### Visited-set restoration -/

/-- The adjacency loop preserves the visited set whenever each inner
call does. -/
theorem dfsFold_restore (step : Pos → List Pos → Option (WithBot ℤ × List Pos))
    (hstep : ∀ c v r' v', c ∉ v → step c v = some (r', v') → v' = v) :
    ∀ (L : List (Pos × ℤ)) (mx : WithBot ℤ) (vis : List Pos) (r : WithBot ℤ) (v' : List Pos),
      dfsFold step L mx vis = some (r, v') → v' = vis := by
  intro L
  induction L with
  | nil =>
    intro mx vis r v' h
    simp only [dfsFold, Option.some.injEq, Prod.mk.injEq] at h
    exact h.2.symm
  | cons e rest ihL =>
    intro mx vis r v' h
    simp only [dfsFold] at h
    by_cases hev : e.1 ∈ vis
    · rw [if_pos hev] at h
      exact ihL _ _ _ _ h
    · rw [if_neg hev] at h
      cases hcall : step e.1 vis with
      | none => rw [hcall] at h; cases h
      | some rv =>
        rw [hcall] at h
        have h1 := ihL _ _ _ _ h
        have h2 := hstep e.1 vis rv.1 rv.2 hev (by rw [hcall])
        rw [h1, h2]

/-- `dfs` restores the visited set it was given: every `visited.add` is
matched by the `visited.remove` on the backtrack, so a successful call
returns with the caller's visited set intact. -/
theorem dfs_restore (graph : Graph) (fin : Pos) :
    ∀ (fuel : ℕ) (curr : Pos) (vis : List Pos) (r : WithBot ℤ) (v' : List Pos),
      curr ∉ vis → dfs graph fin fuel curr vis = some (r, v') → v' = vis := by
  intro fuel
  induction fuel with
  | zero =>
    intro curr vis r v' _ h
    cases h
  | succ fuel ih =>
    intro curr vis r v' hcv h
    simp only [dfs] at h
    by_cases hfin : curr = fin
    · rw [if_pos hfin] at h
      simp only [Option.some.injEq, Prod.mk.injEq] at h
      exact h.2.symm
    · rw [if_neg hfin] at h
      cases hadj : lookupAdj graph curr with
      | none => simp [hadj] at h
      | some adj =>
        simp only [hadj] at h
        have vis1eq : insertSet vis curr = curr :: vis := by
          rw [insertSet, if_neg hcv]
        rw [vis1eq] at h
        cases hfold : dfsFold (fun c v => dfs graph fin fuel c v) adj ⊥ (curr :: vis) with
        | none => simp [hfold] at h
        | some mv =>
          simp only [hfold, Option.some.injEq, Prod.mk.injEq] at h
          have hmv : mv.2 = curr :: vis :=
            dfsFold_restore _ (fun c v r' v'' hc hs => ih c v r' v'' hc hs) _ _ _ _ _ hfold
          rw [← h.2, hmv, List.erase_cons_head]

/-! ### Graph construction invariants -/

/-- Entries after `insertA`: the written entry or an old one. -/
theorem mem_insertA {g : Graph} {k : Pos} {ad : Adj} {kv : Pos × Adj}
    (h : kv ∈ insertA g k ad) : kv = (k, ad) ∨ kv ∈ g :=
  dict_mem_insert (by rw [insertA] at h; exact h)

/-- Keys after `insertA`. -/
theorem gkeys_insertA_mem (g : Graph) (k : Pos) (ad : Adj) (a : Pos) :
    a ∈ gkeys (insertA g k ad) ↔ a = k ∨ a ∈ gkeys g := by
  rw [gkeys, gkeys, insertA]
  exact dict_keys_insert g k ad a

/-- Key uniqueness is preserved by `insertA`. -/
theorem gkeys_nodup_insertA (g : Graph) (k : Pos) (ad : Adj)
    (h : (gkeys g).Nodup) : (gkeys (insertA g k ad)).Nodup := by
  rw [gkeys, insertA]
  exact dict_keys_nodup_insert g k ad h

/-- A `BuildInv` graph is well formed. -/
theorem buildInv_WF {points : List Pos} {graph : Graph} (h : BuildInv points graph) :
    WFGraph graph :=
  ⟨h.2.1, h.2.2.1, fun kv hm e he => h.1 _ (h.2.2.2 kv hm e he)⟩

/-- `recordEdge` preserves the construction invariant when the recorded
target is a point. -/
theorem recordEdge_inv {points : List Pos} {graph : Graph} {s t : Pos} {steps : ℤ}
    (h : BuildInv points graph) (ht : t ∈ points) :
    BuildInv points (recordEdge graph s t steps) := by
  obtain ⟨hK, hN, hA, hT⟩ := h
  have hadjprop : (((lookupAdj graph s).getD []).map (fun e => e.1)).Nodup ∧
      ∀ e ∈ (lookupAdj graph s).getD [], e.1 ∈ points := by
    cases hadj : lookupAdj graph s with
    | none => simp
    | some ad =>
      have hm := lookupAdj_mem hadj
      exact ⟨hA _ hm, fun e he => hT _ hm e he⟩
  refine ⟨?_, ?_, ?_, ?_⟩
  · intro a ha
    rw [recordEdge, gkeys_insertA_mem]
    exact Or.inr (hK a ha)
  · rw [recordEdge]
    exact gkeys_nodup_insertA _ _ _ hN
  · intro kv hm
    rw [recordEdge] at hm
    rcases mem_insertA hm with heq | hm2
    · rw [heq]
      show ((insertW ((lookupAdj graph s).getD []) t steps).map (fun e => e.1)).Nodup
      rw [insertW]
      exact dict_keys_nodup_insert _ t steps hadjprop.1
    · exact hA _ hm2
  · intro kv hm e he
    rw [recordEdge] at hm
    rcases mem_insertA hm with heq | hm2
    · rw [heq] at he
      rcases dict_mem_insert (by rw [insertW] at he; exact he) with heq2 | he2
      · rw [heq2]
        exact ht
      · exact hadjprop.2 _ he2
    · exact hT _ hm2 _ he

/-- The corridor walk preserves the construction invariant. -/
theorem walkLoop_inv (g : Grid) (p : ℕ) (points : List Pos) (s : Pos) :
    ∀ (fuel : ℕ) (stack : List (ℤ × Pos)) (seen : List Pos) (graph : Graph),
      BuildInv points graph →
      BuildInv points (walkLoop g p points s fuel stack seen graph) := by
  intro fuel
  induction fuel with
  | zero => intro stack seen graph h; exact h
  | succ fuel ih =>
    intro stack seen graph h
    match stack with
    | [] => exact h
    | (steps, n) :: st =>
      by_cases hc : steps ≠ 0 ∧ n ∈ points
      · simp only [walkLoop]
        rw [if_pos hc]
        exact ih _ _ _ (recordEdge_inv h hc.2)
      · simp only [walkLoop]
        rw [if_neg hc]
        exact ih _ _ _ h

/-- Keys accumulated by the `initGraph` fold. -/
theorem initGraph_fold_keys :
    ∀ (l : List Pos) (acc : Graph) (a : Pos),
      a ∈ gkeys (l.foldl (fun g q => insertA g q []) acc) ↔ a ∈ l ∨ a ∈ gkeys acc
  | [], acc, a => by simp
  | q :: rest, acc, a => by
    rw [List.foldl_cons, initGraph_fold_keys rest (insertA acc q []) a,
      gkeys_insertA_mem, List.mem_cons]
    tauto

/-- Key uniqueness along the `initGraph` fold. -/
theorem initGraph_fold_nodup :
    ∀ (l : List Pos) (acc : Graph), (gkeys acc).Nodup →
      (gkeys (l.foldl (fun g q => insertA g q []) acc)).Nodup
  | [], _, h => h
  | q :: rest, acc, h => by
    rw [List.foldl_cons]
    exact initGraph_fold_nodup rest _ (gkeys_nodup_insertA _ _ _ h)

/-- All adjacency lists produced by the `initGraph` fold are empty. -/
theorem initGraph_fold_entries :
    ∀ (l : List Pos) (acc : Graph), (∀ kv ∈ acc, kv.2 = ([] : Adj)) →
      ∀ kv ∈ l.foldl (fun g q => insertA g q []) acc, kv.2 = ([] : Adj)
  | [], _, h => h
  | q :: rest, acc, h => by
    rw [List.foldl_cons]
    refine initGraph_fold_entries rest _ ?_
    intro kv hm
    rcases mem_insertA hm with heq | hm2
    · rw [heq]
    · exact h _ hm2

/-- The freshly initialised graph satisfies the invariant. -/
theorem initGraph_inv (points : List Pos) : BuildInv points (initGraph points) := by
  refine ⟨?_, ?_, ?_, ?_⟩
  · intro a ha
    rw [initGraph]
    exact (initGraph_fold_keys points [] a).mpr (Or.inl ha)
  · rw [initGraph]
    exact initGraph_fold_nodup points [] (by simp [gkeys])
  · intro kv hm
    rw [initGraph] at hm
    rw [initGraph_fold_entries points [] (by simp) kv hm]
    simp
  · intro kv hm e he
    rw [initGraph] at hm
    rw [initGraph_fold_entries points [] (by simp) kv hm] at he
    cases he

/-- The graph built by `build_graph` satisfies the invariant. -/
theorem build_graph_inv (grid : Grid) (points : List Pos) (p : ℕ) :
    BuildInv points (build_graph grid points p) := by
  rw [build_graph]
  have main : ∀ (l : List Pos) (acc : Graph), BuildInv points acc →
      BuildInv points (l.foldl
        (fun graph s => walkLoop grid p points s (buildFuel grid) [(0, s)] [s] graph) acc) := by
    intro l
    induction l with
    | nil => intro acc h; exact h
    | cons s rest ihr =>
      intro acc h
      rw [List.foldl_cons]
      exact ihr _ (walkLoop_inv grid p points s _ _ _ _ h)
  exact main points _ (initGraph_inv points)

/-- Effect of `recordEdge` on a single edge lookup. -/
theorem edgeW_recordEdge (graph : Graph) (s t : Pos) (steps : ℤ) (q1 q2 : Pos) :
    edgeW (recordEdge graph s t steps) q1 q2 =
      if q1 = s ∧ q2 = t then some steps else edgeW graph q1 q2 := by
  by_cases h1 : q1 = s
  · subst h1
    rw [edgeW, recordEdge, lookupAdj_insertA_self, Option.some_bind]
    by_cases h2 : q2 = t
    · subst h2
      rw [if_pos ⟨rfl, rfl⟩, lookupW_insertW_self]
    · rw [if_neg (fun hh => h2 hh.2), lookupW_insertW_other _ _ _ _ h2]
      cases hadj : lookupAdj graph q1 with
      | none => rw [edgeW, hadj, Option.none_bind]; rfl
      | some ad => rw [edgeW, hadj, Option.some_bind]; rfl
  · rw [if_neg (fun hh => h1 hh.1), edgeW, edgeW, recordEdge,
      lookupAdj_insertA_other _ _ _ _ h1]

/-- The push step only adds freshly seen cells to the stack and only
grows the seen set. -/
theorem pushNbrs_spec (steps : ℤ) :
    ∀ (nbrs : List Pos) (st : List (ℤ × Pos)) (seen : List Pos),
      (∀ x ∈ seen, x ∈ (pushNbrs steps nbrs st seen).2) ∧
      ∀ e ∈ (pushNbrs steps nbrs st seen).1, e ∈ st ∨ e.2 ∉ seen
  | [], st, seen => ⟨fun _ hx => hx, fun _ he => Or.inl he⟩
  | n :: rest, st, seen => by
    by_cases hn : n ∈ seen
    · have heq : pushNbrs steps (n :: rest) st seen = pushNbrs steps rest st seen := by
        simp only [pushNbrs, List.foldl_cons]
        rw [if_pos hn]
      rw [heq]
      exact pushNbrs_spec steps rest st seen
    · have heq : pushNbrs steps (n :: rest) st seen =
          pushNbrs steps rest ((steps + 1, n) :: st) (n :: seen) := by
        simp only [pushNbrs, List.foldl_cons]
        rw [if_neg hn]
      rw [heq]
      rcases pushNbrs_spec steps rest ((steps + 1, n) :: st) (n :: seen) with ⟨h1, h2⟩
      constructor
      · intro x hx
        exact h1 x (List.mem_cons_of_mem _ hx)
      · intro e he
        rcases h2 e he with he2 | he2
        · rcases List.mem_cons.mp he2 with heq2 | he3
          · rw [heq2]
            exact Or.inr hn
          · exact Or.inl he3
        · exact Or.inr (fun hx => he2 (List.mem_cons_of_mem _ hx))

/-- The freshly initialised graph has no edges at all, in particular no
self-loops. -/
theorem initGraph_self_none (points : List Pos) (q : Pos) :
    edgeW (initGraph points) q q = none := by
  rw [edgeW]
  cases hadj : lookupAdj (initGraph points) q with
  | none => rfl
  | some ad =>
    have hm := lookupAdj_mem hadj
    rw [initGraph] at hm
    have had : ad = ([] : Adj) :=
      initGraph_fold_entries points [] (by simp) _ hm
    rw [Option.some_bind, had]
    rfl

/-- During the walk from a source, the source is seen from the start
and every stack entry carrying the source has step count 0, so the
walk never records a self-loop and preserves self-loop freedom. -/
theorem walkLoop_no_self (g : Grid) (p : ℕ) (points : List Pos) (s : Pos) :
    ∀ (fuel : ℕ) (stack : List (ℤ × Pos)) (seen : List Pos) (graph : Graph),
      (∀ e ∈ stack, e.2 = s → e.1 = 0) → s ∈ seen →
      (∀ q, edgeW graph q q = none) →
      ∀ q, edgeW (walkLoop g p points s fuel stack seen graph) q q = none := by
  intro fuel
  induction fuel with
  | zero => intro stack seen graph _ _ hsf q; exact hsf q
  | succ fuel ih =>
    intro stack seen graph hst hseen hsf q
    match stack with
    | [] => exact hsf q
    | (steps, n) :: st =>
      by_cases hc : steps ≠ 0 ∧ n ∈ points
      · simp only [walkLoop]
        rw [if_pos hc]
        refine ih st seen _ (fun e he hes => hst e (List.mem_cons_of_mem _ he) hes) hseen ?_ q
        intro q2
        rw [edgeW_recordEdge]
        by_cases hq : q2 = s ∧ q2 = n
        · exfalso
          have hns : n = s := by rw [← hq.2, hq.1]
          exact hc.1 (hst (steps, n) (List.mem_cons_self _ _) hns)
        · rw [if_neg hq]
          exact hsf q2
      · simp only [walkLoop]
        rw [if_neg hc]
        rcases pushNbrs_spec steps
          (if p = 1 then get_nxt_cells_p1 g n else get_nxt_cells_p2 g n) st seen with ⟨h1, h2⟩
        refine ih _ _ _ ?_ (h1 s hseen) hsf q
        intro e he hes
        rcases h2 e he with he2 | he2
        · exact hst e (List.mem_cons_of_mem _ he2) hes
        · exact absurd (by rw [hes]; exact hseen) he2

/-! ### Free-mode walk lemmas -/

/-- Membership in the finite set of in-bounds positions. -/
theorem mem_validCells {grid : Grid} {c : Pos} :
    c ∈ validCells grid ↔ is_valid_loc grid c = true := by
  simp only [validCells, Finset.mem_image, Finset.mem_product, Finset.mem_range,
    is_valid_loc, decide_eq_true_eq, Prod.exists]
  constructor
  · rintro ⟨x, y, ⟨hx, hy⟩, rfl⟩
    refine ⟨Int.ofNat_nonneg x, ?_, Int.ofNat_nonneg y, ?_⟩
    · show ((x : ℕ) : ℤ) < ((rowCount grid : ℕ) : ℤ)
      exact_mod_cast hx
    · show ((y : ℕ) : ℤ) < ((colCount grid : ℕ) : ℤ)
      exact_mod_cast hy
  · rintro ⟨h1, h2, h3, h4⟩
    refine ⟨c.1.toNat, c.2.toNat, ⟨by omega, by omega⟩, ?_⟩
    rw [Int.toNat_of_nonneg h1, Int.toNat_of_nonneg h3]

/-- The grid has at most `rows * cols` in-bounds positions. -/
theorem validCells_card_le (grid : Grid) :
    (validCells grid).card ≤ rowCount grid * colCount grid := by
  calc (validCells grid).card
      ≤ ((Finset.range (rowCount grid)) ×ˢ (Finset.range (colCount grid))).card :=
        Finset.card_image_le
    _ = rowCount grid * colCount grid := by
        rw [Finset.card_product, Finset.card_range, Finset.card_range]

/-- The freshly initialised graph has no edges. -/
theorem initGraph_edge_none (points : List Pos) (q1 q2 : Pos) :
    edgeW (initGraph points) q1 q2 = none := by
  rw [edgeW]
  cases hadj : lookupAdj (initGraph points) q1 with
  | none => rfl
  | some ad =>
    have hm := lookupAdj_mem hadj
    rw [initGraph] at hm
    have had : ad = ([] : Adj) :=
      initGraph_fold_entries points [] (by simp) _ hm
    rw [Option.some_bind, had]
    rfl

/-- Recorded edges survive further `recordEdge` calls. -/
theorem recordEdge_edge_mono {graph : Graph} {q1 q2 : Pos} {w : ℤ}
    (s t : Pos) (steps : ℤ) (h : edgeW graph q1 q2 = some w) :
    ∃ w2, edgeW (recordEdge graph s t steps) q1 q2 = some w2 := by
  rw [edgeW_recordEdge]
  by_cases hq : q1 = s ∧ q2 = t
  · exact ⟨steps, if_pos hq⟩
  · exact ⟨w, by rw [if_neg hq]; exact h⟩

/-- Recorded edges survive the rest of a corridor walk. -/
theorem walkLoop_edge_mono (g : Grid) (p : ℕ) (points : List Pos) (s : Pos) :
    ∀ (fuel : ℕ) (stack : List (ℤ × Pos)) (seen : List Pos) (graph : Graph)
      (q1 q2 : Pos) (w : ℤ), edgeW graph q1 q2 = some w →
      ∃ w2, edgeW (walkLoop g p points s fuel stack seen graph) q1 q2 = some w2 := by
  intro fuel
  induction fuel with
  | zero => intro stack seen graph q1 q2 w h; exact ⟨w, h⟩
  | succ fuel ih =>
    intro stack seen graph q1 q2 w h
    match stack with
    | [] => exact ⟨w, h⟩
    | (steps, n) :: st =>
      by_cases hc : steps ≠ 0 ∧ n ∈ points
      · simp only [walkLoop]
        rw [if_pos hc]
        rcases recordEdge_edge_mono s n steps h with ⟨w2, h2⟩
        exact ih _ _ _ _ _ _ h2
      · simp only [walkLoop]
        rw [if_neg hc]
        exact ih _ _ _ _ _ _ h

/-- Full accounting of the push step: old entries persist, every
neighbour ends up seen, new entries are freshly seen neighbours at
step `steps + 1`, and every newly seen cell is on the new stack. -/
theorem pushNbrs_full (steps : ℤ) :
    ∀ (nbrs : List Pos) (st : List (ℤ × Pos)) (seen : List Pos),
      (∀ e ∈ st, e ∈ (pushNbrs steps nbrs st seen).1) ∧
      (∀ nb ∈ nbrs, nb ∈ (pushNbrs steps nbrs st seen).2) ∧
      (∀ e ∈ (pushNbrs steps nbrs st seen).1,
        e ∈ st ∨ (e.2 ∉ seen ∧ e.2 ∈ nbrs ∧ e.1 = steps + 1)) ∧
      ∀ x ∈ (pushNbrs steps nbrs st seen).2,
        x ∈ seen ∨ (steps + 1, x) ∈ (pushNbrs steps nbrs st seen).1
  | [], st, seen =>
    ⟨fun _ he => he, fun _ h => absurd h (List.not_mem_nil _), fun _ he => Or.inl he,
      fun _ hx => Or.inl hx⟩
  | n :: rest, st, seen => by
    by_cases hn : n ∈ seen
    · have heq : pushNbrs steps (n :: rest) st seen = pushNbrs steps rest st seen := by
        simp only [pushNbrs, List.foldl_cons]
        rw [if_pos hn]
      rw [heq]
      rcases pushNbrs_full steps rest st seen with ⟨f1, f2, f3, f4⟩
      refine ⟨f1, ?_, ?_, f4⟩
      · intro nb hnb
        rcases List.mem_cons.mp hnb with rfl | h
        · exact (pushNbrs_spec steps rest st seen).1 nb hn
        · exact f2 nb h
      · intro e he
        rcases f3 e he with h | ⟨h1, h2, h3⟩
        · exact Or.inl h
        · exact Or.inr ⟨h1, List.mem_cons_of_mem _ h2, h3⟩
    · have heq : pushNbrs steps (n :: rest) st seen =
          pushNbrs steps rest ((steps + 1, n) :: st) (n :: seen) := by
        simp only [pushNbrs, List.foldl_cons]
        rw [if_neg hn]
      rw [heq]
      rcases pushNbrs_full steps rest ((steps + 1, n) :: st) (n :: seen) with ⟨f1, f2, f3, f4⟩
      refine ⟨?_, ?_, ?_, ?_⟩
      · intro e he
        exact f1 e (List.mem_cons_of_mem _ he)
      · intro nb hnb
        rcases List.mem_cons.mp hnb with rfl | h
        · exact (pushNbrs_spec steps rest _ _).1 nb (List.mem_cons_self _ _)
        · exact f2 nb h
      · intro e he
        rcases f3 e he with h | ⟨h1, h2, h3⟩
        · rcases List.mem_cons.mp h with heq2 | h4
          · exact Or.inr ⟨by rw [heq2]; exact hn, by rw [heq2]; exact List.mem_cons_self _ _,
              by rw [heq2]⟩
          · exact Or.inl h4
        · exact Or.inr ⟨fun hx => h1 (List.mem_cons_of_mem _ hx),
            List.mem_cons_of_mem _ h2, h3⟩
      · intro x hx
        rcases f4 x hx with h | h
        · rcases List.mem_cons.mp h with rfl | h2
          · exact Or.inr (f1 _ (List.mem_cons_self _ _))
          · exact Or.inl h2
        · exact Or.inr h

/-- The push step can only decrease the termination measure
`stack length + number of unseen in-bounds cells`, provided the pushed
neighbours are in bounds. -/
theorem pushNbrs_measure (grid : Grid) (steps : ℤ) :
    ∀ (nbrs : List Pos) (st : List (ℤ × Pos)) (seen : List Pos),
      (∀ nb ∈ nbrs, is_valid_loc grid nb = true) →
      (pushNbrs steps nbrs st seen).1.length +
          (validCells grid \ (pushNbrs steps nbrs st seen).2.toFinset).card ≤
        st.length + (validCells grid \ seen.toFinset).card
  | [], st, seen, _ => le_refl _
  | n :: rest, st, seen, hval => by
    by_cases hn : n ∈ seen
    · have heq : pushNbrs steps (n :: rest) st seen = pushNbrs steps rest st seen := by
        simp only [pushNbrs, List.foldl_cons]
        rw [if_pos hn]
      rw [heq]
      exact pushNbrs_measure grid steps rest st seen
        (fun nb h => hval nb (List.mem_cons_of_mem _ h))
    · have heq : pushNbrs steps (n :: rest) st seen =
          pushNbrs steps rest ((steps + 1, n) :: st) (n :: seen) := by
        simp only [pushNbrs, List.foldl_cons]
        rw [if_neg hn]
      rw [heq]
      have hrec := pushNbrs_measure grid steps rest ((steps + 1, n) :: st) (n :: seen)
        (fun nb h => hval nb (List.mem_cons_of_mem _ h))
      have hn_mem : n ∈ validCells grid \ seen.toFinset :=
        Finset.mem_sdiff.mpr ⟨mem_validCells.mpr (hval n (List.mem_cons_self _ _)),
          fun hcc => hn (List.mem_toFinset.mp hcc)⟩
      have hcard : (validCells grid \ (n :: seen).toFinset).card =
          (validCells grid \ seen.toFinset).card - 1 := by
        rw [List.toFinset_cons, Finset.sdiff_insert, Finset.card_erase_of_mem hn_mem]
      have hpos : 1 ≤ (validCells grid \ seen.toFinset).card :=
        Finset.card_pos.mpr ⟨n, hn_mem⟩
      rw [hcard, List.length_cons] at hrec
      omega

/-- A free-mode step is reversible when the stepped-from cell is in
bounds and passable. -/
theorem stepOk_symm (grid : Grid) {c d : Pos} (h : d ∈ get_nxt_cells_p2 grid c)
    (hc : is_valid_loc grid c = true) (hw : cellAt grid c ≠ '#') :
    c ∈ get_nxt_cells_p2 grid d := by
  rcases mem_openNbrs.mp h with ⟨dir, hdir, hde, hv, hcw⟩
  have hdir4 : dir = ((0 : ℤ), (1 : ℤ)) ∨ dir = (0, -1) ∨ dir = (1, 0) ∨ dir = (-1, 0) := by
    simpa [nbrDirs] using hdir
  refine mem_openNbrs.mpr ⟨(-dir.1, -dir.2), ?_, ?_, hc, hw⟩
  · rcases hdir4 with rfl | rfl | rfl | rfl <;> decide
  · rw [hde]
    have e1 : c.1 + dir.1 + -dir.1 = c.1 := by ring
    have e2 : c.2 + dir.2 + -dir.2 = c.2 := by ring
    rw [e1, e2]

/-- The endpoint of a walk is in bounds and passable. -/
theorem walkable_target_ok {grid : Grid} {points : List Pos} {a b : Pos}
    (h : Walkable grid points a b) :
    is_valid_loc grid b = true ∧ cellAt grid b ≠ '#' := by
  induction h with
  | step c d hcd =>
    rcases mem_openNbrs.mp hcd with ⟨dir, -, -, hv, hw⟩
    exact ⟨hv, hw⟩
  | trans c d e hcd hd ht ih => exact ih

/-- A walk can be extended by a step from its non-node endpoint. -/
theorem walkable_concat {grid : Grid} {points : List Pos} {x y z : Pos}
    (h : Walkable grid points x y) (hy : y ∉ points)
    (hz : z ∈ get_nxt_cells_p2 grid y) : Walkable grid points x z := by
  induction h with
  | step c d hcd => exact Walkable.trans c d z hcd hy (Walkable.step d z hz)
  | trans c d e hcd hd ht ih => exact Walkable.trans c d z hcd hd (ih hy hz)

/-- A walk reverses when its source cell is in bounds and passable:
interior cells stay interior and every step flips by `stepOk_symm`. -/
theorem walkable_symm {grid : Grid} {points : List Pos} :
    ∀ {a b : Pos}, Walkable grid points a b →
      is_valid_loc grid a = true → cellAt grid a ≠ '#' → Walkable grid points b a := by
  intro a b h
  induction h with
  | step c d hcd =>
    intro hc hw
    exact Walkable.step d c (stepOk_symm grid hcd hc hw)
  | trans c d e hcd hd ht ih =>
    intro hc hw
    have hdok := mem_openNbrs.mp hcd
    rcases hdok with ⟨dir, -, -, hv, hnw⟩
    exact walkable_concat (ih hv hnw) hd (stepOk_symm grid hcd hc hw)

/-! ### Soundness of the free-mode corridor walk -/

/-- Every edge the free-mode walk records goes from the source to a
distinct node reachable by an interior-node-free walk. -/
theorem walkLoop_sound (grid : Grid) (points : List Pos) (s : Pos) (hs : s ∈ points) :
    ∀ (fuel : ℕ) (stack : List (ℤ × Pos)) (seen : List Pos) (graph : Graph),
      (∀ e ∈ stack, (e.1 = 0 ∧ e.2 = s) ∨
        (e.2 ≠ s ∧ 1 ≤ e.1 ∧ Walkable grid points s e.2)) →
      s ∈ seen →
      (∀ q1 q2 w, edgeW graph q1 q2 = some w →
        q1 ∈ points ∧ q2 ∈ points ∧ q2 ≠ q1 ∧ Walkable grid points q1 q2) →
      ∀ q1 q2 w, edgeW (walkLoop grid 2 points s fuel stack seen graph) q1 q2 = some w →
        q1 ∈ points ∧ q2 ∈ points ∧ q2 ≠ q1 ∧ Walkable grid points q1 q2 := by
  intro fuel
  induction fuel with
  | zero => intro stack seen graph _ _ hsound q1 q2 w h; exact hsound q1 q2 w h
  | succ fuel ih =>
    intro stack seen graph hstk hseen hsound q1 q2 w h
    rcases stack with _ | ⟨⟨steps, n⟩, st⟩
    · exact hsound q1 q2 w h
    · by_cases hc : steps ≠ 0 ∧ n ∈ points
      · simp only [walkLoop] at h
        rw [if_pos hc] at h
        refine ih st seen (recordEdge graph s n steps)
          (fun e he => hstk e (List.mem_cons_of_mem _ he)) hseen ?_ q1 q2 w h
        intro a b wd hd
        rw [edgeW_recordEdge] at hd
        by_cases hab : a = s ∧ b = n
        · rcases hstk (steps, n) (List.mem_cons_self _ _) with ⟨h0, -⟩ | ⟨hns, -, hwk⟩
          · exact absurd h0 hc.1
          · exact ⟨hab.1 ▸ hs, hab.2 ▸ hc.2, by rw [hab.1, hab.2]; exact hns,
              by rw [hab.1, hab.2]; exact hwk⟩
        · rw [if_neg hab] at hd
          exact hsound a b wd hd
      · simp only [walkLoop] at h
        rw [if_neg hc] at h
        refine ih _ _ graph ?_
          ((pushNbrs_spec steps (get_nxt_cells_p2 grid n) st seen).1 s hseen)
          hsound q1 q2 w h
        intro e he
        rcases (pushNbrs_full steps (get_nxt_cells_p2 grid n) st seen).2.2.1 e he with
          he2 | ⟨hn1, hn2, hn3⟩
        · exact hstk e (List.mem_cons_of_mem _ he2)
        · right
          rcases hstk (steps, n) (List.mem_cons_self _ _) with ⟨h0, hns⟩ | ⟨hns, hge, hwk⟩
          · have hns' : n = s := hns
            have h0' : steps = 0 := h0
            refine ⟨fun hxx => hn1 (hxx ▸ hseen), by rw [hn3]; omega, ?_⟩
            exact Walkable.step s e.2 (hns' ▸ hn2)
          · have hge' : (1 : ℤ) ≤ steps := hge
            refine ⟨fun hxx => hn1 (hxx ▸ hseen), by rw [hn3]; omega, ?_⟩
            have hnp : n ∉ points := by
              intro hmem
              exact hc ⟨by omega, hmem⟩
            exact walkable_concat hwk hnp hn2

/-- Every edge of the free-mode graph goes from one node of the points
list to a distinct one reachable by an interior-node-free walk. -/
theorem build_graph_sound (grid : Grid) (points : List Pos) :
    ∀ q1 q2 w, edgeW (build_graph grid points 2) q1 q2 = some w →
      q1 ∈ points ∧ q2 ∈ points ∧ q2 ≠ q1 ∧ Walkable grid points q1 q2 := by
  rw [build_graph]
  have main : ∀ (l : List Pos), (∀ x ∈ l, x ∈ points) → ∀ (acc : Graph),
      (∀ q1 q2 w, edgeW acc q1 q2 = some w →
        q1 ∈ points ∧ q2 ∈ points ∧ q2 ≠ q1 ∧ Walkable grid points q1 q2) →
      ∀ q1 q2 w, edgeW (l.foldl (fun graph s =>
          walkLoop grid 2 points s (buildFuel grid) [(0, s)] [s] graph) acc) q1 q2 =
          some w →
        q1 ∈ points ∧ q2 ∈ points ∧ q2 ≠ q1 ∧ Walkable grid points q1 q2 := by
    intro l
    induction l with
    | nil => intro _ acc hacc; exact hacc
    | cons s rest ihr =>
      intro hl acc hacc
      rw [List.foldl_cons]
      refine ihr (fun x hx => hl x (List.mem_cons_of_mem _ hx)) _ ?_
      refine walkLoop_sound grid points s (hl s (List.mem_cons_self _ _)) (buildFuel grid)
        [(0, s)] [s] acc ?_ (List.mem_singleton_self s) hacc
      intro e he
      rw [List.mem_singleton.mp he]
      exact Or.inl ⟨rfl, rfl⟩
  refine main points (fun x hx => hx) _ ?_
  intro q1 q2 w h
  rw [initGraph_edge_none] at h
  cases h

/-! ### Completeness of the free-mode corridor walk -/

/-- With enough fuel, the corridor walk runs to completion and leaves
every seen cell fully processed: expanded cells have all free-mode
neighbours seen, and every seen node other than the source has been
recorded as an edge target of the source. -/
theorem walkLoop_post (grid : Grid) (points : List Pos) (s : Pos) :
    ∀ (fuel : ℕ) (stack : List (ℤ × Pos)) (seen : List Pos) (graph : Graph),
      stack.length + (validCells grid \ seen.toFinset).card < fuel →
      (∀ e ∈ stack, 0 ≤ e.1 ∧ (e.2 = s ↔ e.1 = 0)) →
      s ∈ seen →
      (∀ c ∈ seen, (∃ e ∈ stack, e.2 = c) ∨ WalkDone grid points s seen graph c) →
      ∃ seenF, (∀ x ∈ seen, x ∈ seenF) ∧
        ∀ c ∈ seenF, WalkDone grid points s seenF
          (walkLoop grid 2 points s fuel stack seen graph) c := by
  intro fuel
  induction fuel with
  | zero => intro stack seen graph hm _ _ _; omega
  | succ fuel ih =>
    intro stack seen graph hm hA hs hInv
    rcases stack with _ | ⟨⟨steps, n⟩, st⟩
    · refine ⟨seen, fun x hx => hx, ?_⟩
      intro c hcc
      rcases hInv c hcc with ⟨e, he, -⟩ | hdone
      · exact absurd he (List.not_mem_nil e)
      · exact hdone
    · by_cases hc : steps ≠ 0 ∧ n ∈ points
      · have hns : n ≠ s := fun hh => hc.1 ((hA (steps, n) (List.mem_cons_self _ _)).2.mp hh)
        have hm' : st.length + (validCells grid \ seen.toFinset).card < fuel := by
          rw [List.length_cons] at hm
          omega
        have hInv' : ∀ c ∈ seen, (∃ e ∈ st, e.2 = c) ∨
            WalkDone grid points s seen (recordEdge graph s n steps) c := by
          intro c hcc
          rcases hInv c hcc with ⟨e, he, heq⟩ | hdone
          · rcases List.mem_cons.mp he with rfl | he2
            · have heq' : n = c := heq
              right
              constructor
              · intro hcp
                exfalso
                rcases hcp with hcp | hcp
                · exact hcp (heq' ▸ hc.2)
                · exact hns (by rw [heq', hcp])
              · intro _ _
                exact ⟨steps, by rw [edgeW_recordEdge, if_pos ⟨rfl, heq'.symm⟩]⟩
            · exact Or.inl ⟨e, he2, heq⟩
          · right
            refine ⟨hdone.1, ?_⟩
            intro h1 h2
            rcases hdone.2 h1 h2 with ⟨w, hw⟩
            exact recordEdge_edge_mono s n steps hw
        rcases ih st seen (recordEdge graph s n steps) hm'
          (fun e he => hA e (List.mem_cons_of_mem _ he)) hs hInv' with ⟨seenF, hsub, hpost⟩
        refine ⟨seenF, hsub, ?_⟩
        intro c hcF
        have hdc := hpost c hcF
        simp only [walkLoop]
        rw [if_pos hc]
        exact hdc
      · have hAhead := hA (steps, n) (List.mem_cons_self _ _)
        have hval : ∀ nb ∈ get_nxt_cells_p2 grid n, is_valid_loc grid nb = true := by
          intro nb hnb
          rcases mem_openNbrs.mp hnb with ⟨dir, -, -, hv, -⟩
          exact hv
        rcases pushNbrs_full steps (get_nxt_cells_p2 grid n) st seen with ⟨f1, f2, f3, f4⟩
        have hseen' : s ∈ (pushNbrs steps (get_nxt_cells_p2 grid n) st seen).2 :=
          (pushNbrs_spec steps (get_nxt_cells_p2 grid n) st seen).1 s hs
        have hm' : (pushNbrs steps (get_nxt_cells_p2 grid n) st seen).1.length +
            (validCells grid \
              (pushNbrs steps (get_nxt_cells_p2 grid n) st seen).2.toFinset).card < fuel := by
          have hmb := pushNbrs_measure grid steps (get_nxt_cells_p2 grid n) st seen hval
          rw [List.length_cons] at hm
          omega
        have hA' : ∀ e ∈ (pushNbrs steps (get_nxt_cells_p2 grid n) st seen).1,
            0 ≤ e.1 ∧ (e.2 = s ↔ e.1 = 0) := by
          intro e he
          rcases f3 e he with he2 | ⟨hn1, hn2, hn3⟩
          · exact hA e (List.mem_cons_of_mem _ he2)
          · refine ⟨by rw [hn3]; omega, ?_, ?_⟩
            · intro hh
              exact absurd (hh ▸ hs) hn1
            · intro hh
              rw [hn3] at hh
              omega
        have hInv' : ∀ c ∈ (pushNbrs steps (get_nxt_cells_p2 grid n) st seen).2,
            (∃ e ∈ (pushNbrs steps (get_nxt_cells_p2 grid n) st seen).1, e.2 = c) ∨
              WalkDone grid points s
                (pushNbrs steps (get_nxt_cells_p2 grid n) st seen).2 graph c := by
          intro c hcc
          rcases f4 c hcc with hcs | hpush
          · rcases hInv c hcs with ⟨e, he, heq⟩ | hdone
            · rcases List.mem_cons.mp he with rfl | he2
              · have heq' : n = c := heq
                right
                constructor
                · intro _ nb hnb
                  refine f2 nb ?_
                  rw [heq']
                  exact hnb
                · intro h1 h2
                  exfalso
                  have hnp : n ∈ points := by rw [heq']; exact h1
                  have hsteps : steps = 0 := by
                    by_contra hnz
                    exact hc ⟨hnz, hnp⟩
                  have hns2 : n = s := hAhead.2.mpr hsteps
                  exact h2 (by rw [← heq', hns2])
              · exact Or.inl ⟨e, f1 e he2, heq⟩
            · right
              refine ⟨?_, hdone.2⟩
              intro hcp nb hnb
              exact (pushNbrs_spec steps (get_nxt_cells_p2 grid n) st seen).1 nb
                (hdone.1 hcp nb hnb)
          · exact Or.inl ⟨(steps + 1, c), hpush, rfl⟩
        rcases ih (pushNbrs steps (get_nxt_cells_p2 grid n) st seen).1
          (pushNbrs steps (get_nxt_cells_p2 grid n) st seen).2 graph hm' hA' hseen' hInv' with
          ⟨seenF, hsub, hpost⟩
        refine ⟨seenF, fun x hx => hsub x
          ((pushNbrs_spec steps (get_nxt_cells_p2 grid n) st seen).1 x hx), ?_⟩
        intro c hcF
        have hdc := hpost c hcF
        simp only [walkLoop]
        rw [if_neg hc]
        exact hdc

/-- Processed-cell closure turns walk reachability into seen-ness. -/
theorem walkDone_reach (grid : Grid) (points : List Pos) (s : Pos) (seenF : List Pos)
    (graphF : Graph) (hpost : ∀ c ∈ seenF, WalkDone grid points s seenF graphF c) :
    ∀ x y, Walkable grid points x y → x ∈ seenF → (x ∉ points ∨ x = s) → y ∈ seenF := by
  intro x y h
  induction h with
  | step c d hcd =>
    intro hcs hcp
    exact (hpost c hcs).1 hcp d hcd
  | trans c d e hcd hd ht ih =>
    intro hcs hcp
    exact ih ((hpost c hcs).1 hcp d hcd) (Or.inl hd)

/-- Completeness for the built free-mode graph: whenever a node of the
points list can reach a distinct node by an interior-node-free walk,
the built graph records an edge between them. -/
theorem build_graph_records (grid : Grid) (points : List Pos) (b a : Pos)
    (hb : b ∈ points) (ha : a ∈ points) (hab : a ≠ b)
    (hwk : Walkable grid points b a) :
    ∃ w, edgeW (build_graph grid points 2) b a = some w := by
  rcases List.append_of_mem hb with ⟨l1, l2, rfl⟩
  rw [build_graph, List.foldl_append, List.foldl_cons]
  have foldmono : ∀ (l : List Pos) (acc : Graph) (q1 q2 : Pos) (w : ℤ),
      edgeW acc q1 q2 = some w →
      ∃ w2, edgeW (l.foldl (fun graph s => walkLoop grid 2 (l1 ++ b :: l2) s
        (buildFuel grid) [(0, s)] [s] graph) acc) q1 q2 = some w2 := by
    intro l
    induction l with
    | nil => intro acc q1 q2 w h; exact ⟨w, h⟩
    | cons s rest ihr =>
      intro acc q1 q2 w h
      rw [List.foldl_cons]
      rcases walkLoop_edge_mono grid 2 (l1 ++ b :: l2) s (buildFuel grid)
        [(0, s)] [s] acc q1 q2 w h with ⟨w2, h2⟩
      exact ihr _ q1 q2 w2 h2
  have hmeas : ([((0 : ℤ), b)]).length +
      (validCells grid \ ([b] : List Pos).toFinset).card < buildFuel grid := by
    have h1 : (validCells grid \ ([b] : List Pos).toFinset).card ≤ (validCells grid).card :=
      Finset.card_le_card (Finset.sdiff_subset)
    have h2 := validCells_card_le grid
    rw [buildFuel]
    simp only [List.length_singleton]
    omega
  rcases walkLoop_post grid (l1 ++ b :: l2) b (buildFuel grid) [(0, b)] [b]
    (l1.foldl (fun graph s => walkLoop grid 2 (l1 ++ b :: l2) s (buildFuel grid)
      [(0, s)] [s] graph) (initGraph (l1 ++ b :: l2)))
    hmeas
    (by
      intro e he
      rw [List.mem_singleton.mp he]
      exact ⟨le_refl 0, iff_of_true rfl rfl⟩)
    (List.mem_singleton_self b)
    (by
      intro c hcc
      exact Or.inl ⟨(0, b), List.mem_singleton_self _, (List.mem_singleton.mp hcc).symm⟩)
    with ⟨seenF, hsub, hpost⟩
  have hbF : b ∈ seenF := hsub b (List.mem_singleton_self b)
  have haF : a ∈ seenF :=
    walkDone_reach grid (l1 ++ b :: l2) b seenF _ hpost b a hwk hbF (Or.inr rfl)
  rcases (hpost a haF).2 ha hab with ⟨w, hw⟩
  exact foldmono l2 _ b a w hw

/-! ### Counterexample theorems -/

/-- C3 counterexample: in constrained mode a forced-direction cell can
return a wall cell.  On the one-row grid `>#`, the `'>'` cell at
`(0,0)` has the in-bounds wall `(0,1)` as its unique admissible next
cell, refuting "each admissible next cell is a passable cell (never a
wall cell)". -/
theorem get_nxt_cells_p1_wall_cex :
    get_nxt_cells_p1 [['>', '#']] (0, 0) = [(0, 1)] ∧
      cellAt [['>', '#']] (0, 1) = '#' :=
  ⟨by decide, by decide⟩

/-- C4 counterexample: on a grid whose first and last rows contain no
open cell, `get_start_finish` does not fail; it silently returns column
0, here the wall cell `(0,0)` as entry and `(1,0)` as exit. -/
theorem get_start_finish_no_fail_cex :
    get_start_finish [['#'], ['#']] = ((0, 0), (1, 0)) ∧
      cellAt [['#'], ['#']] (0, 0) = '#' :=
  ⟨by decide, by decide⟩

/-- C2 counterexample: on the empty graph no entry-to-exit path exists,
yet `get_max_steps` does not return the `Unreachable` value `⊥`: the
lookup `graph[curr]` fails (a Python `KeyError`, modelled as `none`),
so the call crashes instead. -/
theorem get_max_steps_missing_key_cex :
    get_max_steps ([] : Graph) (0, 0) (1, 1) = none ∧
      (¬ ∃ p w, GPath ([] : Graph) (0, 0) (1, 1) p w) := by
  refine ⟨by decide, ?_⟩
  rintro ⟨p, w, h⟩
  cases h with
  | cons a b c w ws p hw hp ha => simp [edgeW, lookupAdj] at hw

/-- C5 counterexample: on `exGrid` the free-mode graph of the source
pipeline contains the edge `(6,1) → (8,6)` with weight 7 but the
reverse edge `(8,6) → (6,1)` with weight 11: the depth-first corridor
walk records different corridors in the two directions, so the
free-mode graph is not weight-symmetric. -/
theorem build_graph_asym_weight_cex :
    edgeW (build_graph exGrid exPoints 2) (6, 1) (8, 6) = some 7 ∧
      edgeW (build_graph exGrid exPoints 2) (8, 6) (6, 1) = some 11 ∧
      (7 : ℤ) ≠ 11 :=
  ⟨by decide, by decide, by decide⟩

/-- C6 counterexample: on `exGrid` the source pipeline yields maximum
path length 20 in constrained (part 1) mode but only 16 in free
(part 2) mode, refuting "constrained-mode result ≤ free-mode result":
in free mode the corridor walk from `(6,1)` reaches `(8,6)` through the
short corridor first and therefore records the smaller weight. -/
theorem p1_result_gt_p2_result_cex :
    get_max_steps (build_graph exGrid exPoints 1) exStart exFinish = some ((20 : ℤ) : WithBot ℤ) ∧
      get_max_steps (build_graph exGrid exPoints 2) exStart exFinish = some ((16 : ℤ) : WithBot ℤ) ∧
      ¬ (((20 : ℤ) : WithBot ℤ) ≤ ((16 : ℤ) : WithBot ℤ)) :=
  ⟨by decide, by decide, by decide⟩

/-! ### C3 (amended): constrained-mode step function -/

/-- C3 amended: from a forced-direction cell whose indicated neighbour
is in bounds, that neighbour is the only admissible next cell (it may
be a wall — see the counterexample); from every other cell — including
forced-direction cells whose indicated neighbour is out of bounds —
the admissible next cells are exactly the in-bounds non-wall
orthogonal neighbours, hence passable. -/
theorem get_nxt_cells_p1_spec (g : Grid) (c : Pos) :
    (cellAt g c = '>' ∧ is_valid_loc g (c.1, c.2 + 1) = true →
      get_nxt_cells_p1 g c = [(c.1, c.2 + 1)]) ∧
    (cellAt g c = '<' ∧ is_valid_loc g (c.1, c.2 - 1) = true →
      get_nxt_cells_p1 g c = [(c.1, c.2 - 1)]) ∧
    (cellAt g c = '^' ∧ is_valid_loc g (c.1 - 1, c.2) = true →
      get_nxt_cells_p1 g c = [(c.1 - 1, c.2)]) ∧
    (cellAt g c = 'v' ∧ is_valid_loc g (c.1 + 1, c.2) = true →
      get_nxt_cells_p1 g c = [(c.1 + 1, c.2)]) ∧
    (¬(cellAt g c = '>' ∧ is_valid_loc g (c.1, c.2 + 1) = true) →
      ¬(cellAt g c = '<' ∧ is_valid_loc g (c.1, c.2 - 1) = true) →
      ¬(cellAt g c = '^' ∧ is_valid_loc g (c.1 - 1, c.2) = true) →
      ¬(cellAt g c = 'v' ∧ is_valid_loc g (c.1 + 1, c.2) = true) →
      ∀ n, n ∈ get_nxt_cells_p1 g c ↔
        ∃ d ∈ nbrDirs, n = (c.1 + d.1, c.2 + d.2) ∧
          is_valid_loc g n = true ∧ cellAt g n ≠ '#') := by
  refine ⟨?_, ?_, ?_, ?_, ?_⟩
  · intro h
    rw [get_nxt_cells_p1, if_pos h]
  · intro h
    have h1 : ¬(cellAt g c = '>' ∧ is_valid_loc g (c.1, c.2 + 1) = true) := by
      rintro ⟨hh, -⟩; rw [h.1] at hh; simp at hh
    rw [get_nxt_cells_p1, if_neg h1, if_pos h]
  · intro h
    have h1 : ¬(cellAt g c = '>' ∧ is_valid_loc g (c.1, c.2 + 1) = true) := by
      rintro ⟨hh, -⟩; rw [h.1] at hh; simp at hh
    have h2 : ¬(cellAt g c = '<' ∧ is_valid_loc g (c.1, c.2 - 1) = true) := by
      rintro ⟨hh, -⟩; rw [h.1] at hh; simp at hh
    rw [get_nxt_cells_p1, if_neg h1, if_neg h2, if_pos h]
  · intro h
    have h1 : ¬(cellAt g c = '>' ∧ is_valid_loc g (c.1, c.2 + 1) = true) := by
      rintro ⟨hh, -⟩; rw [h.1] at hh; simp at hh
    have h2 : ¬(cellAt g c = '<' ∧ is_valid_loc g (c.1, c.2 - 1) = true) := by
      rintro ⟨hh, -⟩; rw [h.1] at hh; simp at hh
    have h3 : ¬(cellAt g c = '^' ∧ is_valid_loc g (c.1 - 1, c.2) = true) := by
      rintro ⟨hh, -⟩; rw [h.1] at hh; simp at hh
    rw [get_nxt_cells_p1, if_neg h1, if_neg h2, if_neg h3, if_pos h]
  · intro h1 h2 h3 h4 n
    rw [get_nxt_cells_p1, if_neg h1, if_neg h2, if_neg h3, if_neg h4]
    exact mem_openNbrs

/-- Witness for `get_nxt_cells_p1_spec` at a concrete slope cell. -/
theorem get_nxt_cells_p1_spec_witness :
    get_nxt_cells_p1 [['>', '.']] (0, 0) = [(0, 1)] :=
  (get_nxt_cells_p1_spec [['>', '.']] (0, 0)).1 ⟨by decide, by decide⟩

/-! ### C4 (amended): endpoint extraction -/

/-- C4 amended: `get_start_finish` never fails.  The entry is row 0 at
the column of the first `'.'` of row 0 (column 0 when the row has no
`'.'`), and the exit is the last row at the column of the first `'.'`
of the last row (column 0 when there is none). -/
theorem get_start_finish_spec (g : Grid) :
    ((∀ ch ∈ g.headD [], ch ≠ '.') → (get_start_finish g).1 = (0, 0)) ∧
    ((∃ ch ∈ g.headD [], ch = '.') →
      ∃ k : ℕ, (get_start_finish g).1 = (0, (k : ℤ)) ∧ k < (g.headD []).length ∧
        (g.headD []).getD k '#' = '.' ∧ ∀ j, j < k → (g.headD []).getD j '#' ≠ '.') ∧
    ((∀ ch ∈ g.getLastD [], ch ≠ '.') → (get_start_finish g).2 = ((g.length : ℤ) - 1, 0)) ∧
    ((∃ ch ∈ g.getLastD [], ch = '.') →
      ∃ k : ℕ, (get_start_finish g).2 = ((g.length : ℤ) - 1, (k : ℤ)) ∧
        k < (g.getLastD []).length ∧
        (g.getLastD []).getD k '#' = '.' ∧ ∀ j, j < k → (g.getLastD []).getD j '#' ≠ '.') := by
  have key : ∀ row : List Char,
      ((∀ ch ∈ row, ch ≠ '.') → firstDotY row = 0) ∧
      ((∃ ch ∈ row, ch = '.') → ∃ k : ℕ, firstDotY row = (k : ℤ) ∧ k < row.length ∧
        row.getD k '#' = '.' ∧ ∀ j, j < k → row.getD j '#' ≠ '.') := by
    intro row
    rcases findIdx?_char (fun ch => ch = '.') row with ⟨h1, h2⟩ | ⟨k, h1, h2, h3, h4⟩
    · constructor
      · intro _
        simp [firstDotY, h1]
      · rintro ⟨ch, hch, rfl⟩
        have := h2 _ hch
        simp at this
    · constructor
      · intro hno
        have hmem : row.getD k '#' ∈ row := by
          rw [List.getD_eq_getElem row '#' h2]
          exact List.getElem_mem h2
        have := hno _ hmem
        simp only [decide_eq_true_eq] at h3
        exact absurd h3 this
      · intro _
        refine ⟨k, by simp [firstDotY, h1], h2, by simpa using h3, ?_⟩
        intro j hj
        have := h4 j hj
        simpa using this
  rcases key (g.headD []) with ⟨k1, k2⟩
  rcases key (g.getLastD []) with ⟨k3, k4⟩
  have e1 : (get_start_finish g).1 = (0, firstDotY (g.headD [])) := rfl
  have e2 : (get_start_finish g).2 = ((g.length : ℤ) - 1, firstDotY (g.getLastD [])) := rfl
  refine ⟨?_, ?_, ?_, ?_⟩
  · intro h
    rw [e1, k1 h]
  · intro h
    rcases k2 h with ⟨k, hk, h1, h2, h3⟩
    exact ⟨k, by rw [e1, hk], h1, h2, h3⟩
  · intro h
    rw [e2, k3 h]
  · intro h
    rcases k4 h with ⟨k, hk, h1, h2, h3⟩
    exact ⟨k, by rw [e2, hk], h1, h2, h3⟩

/-- Witness for `get_start_finish_spec` on a concrete grid whose first
row opens at column 1 and whose last row opens at column 0. -/
theorem get_start_finish_spec_witness :
    ∃ k : ℕ, (get_start_finish [['#', '.'], ['.', '#']]).1 = (0, (k : ℤ)) ∧
      k < ([['#', '.'], ['.', '#']].headD []).length ∧
      ([['#', '.'], ['.', '#']].headD []).getD k '#' = '.' ∧
      ∀ j, j < k → ([['#', '.'], ['.', '#']].headD []).getD j '#' ≠ '.' :=
  (get_start_finish_spec [['#', '.'], ['.', '#']]).2.1 (by decide)

/-! ### C7: junction classification -/

/-- C7: a cell other than the two endpoints is in the node list exactly
when it is an in-bounds non-wall cell with at least three in-bounds
non-wall orthogonal neighbours; in particular a cell with exactly two
passable neighbours is never classified as a junction. -/
theorem get_option_points_junction_iff (g : Grid) (s f c : Pos)
    (hs : c ≠ s) (hf : c ≠ f) :
    (c ∈ get_option_points g s f ↔
      is_valid_loc g c = true ∧ cellAt g c ≠ '#' ∧ 3 ≤ countNbrs g c) ∧
    (countNbrs g c = 2 → c ∉ get_option_points g s f) := by
  have main : c ∈ get_option_points g s f ↔
      is_valid_loc g c = true ∧ cellAt g c ≠ '#' ∧ 3 ≤ countNbrs g c := by
    rw [get_option_points, List.mem_append]
    constructor
    · rintro (hm | hm)
      · rcases List.mem_cons.mp hm with rfl | hm2
        · exact absurd rfl hs
        · rcases List.mem_cons.mp hm2 with rfl | hm3
          · exact absurd rfl hf
          · exact absurd hm3 (List.not_mem_nil c)
      · rcases List.mem_flatMap.mp hm with ⟨x, hx, hy⟩
        rcases List.mem_filterMap.mp hy with ⟨y, hy', hcf⟩
        have hxr := List.mem_range.mp hx
        have hyr := List.mem_range.mp hy'
        by_cases hcond : cellAt g ((x : ℤ), (y : ℤ)) ≠ '#' ∧ 3 ≤ countNbrs g ((x : ℤ), (y : ℤ))
        · rw [if_pos hcond] at hcf
          cases hcf
          refine ⟨?_, hcond.1, hcond.2⟩
          simp only [is_valid_loc, decide_eq_true_eq]
          refine ⟨Int.ofNat_nonneg x, ?_, Int.ofNat_nonneg y, ?_⟩ <;> exact_mod_cast ‹_›
        · rw [if_neg hcond] at hcf
          cases hcf
    · rintro ⟨hv, hw, hcnt⟩
      simp only [is_valid_loc, decide_eq_true_eq] at hv
      obtain ⟨hx0, hxr, hy0, hyr⟩ := hv
      have ex : ((c.1.toNat : ℤ), (c.2.toNat : ℤ)) = c := by
        rw [Int.toNat_of_nonneg hx0, Int.toNat_of_nonneg hy0]
      have hb1 : c.1.toNat < rowCount g := by omega
      have hb2 : c.2.toNat < colCount g := by omega
      refine Or.inr (List.mem_flatMap.mpr ⟨c.1.toNat, List.mem_range.mpr hb1,
        List.mem_filterMap.mpr ⟨c.2.toNat, List.mem_range.mpr hb2, ?_⟩⟩)
      rw [ex, if_pos ⟨hw, hcnt⟩]
  refine ⟨main, ?_⟩
  intro h2 hc
  have := (main.mp hc).2.2
  omega

/-- Witness for `get_option_points_junction_iff` at the junction
`(6,1)` of `exGrid`. -/
theorem get_option_points_junction_iff_witness :
    ((6, 1) : Pos) ∈ get_option_points exGrid exStart exFinish ↔
      is_valid_loc exGrid (6, 1) = true ∧ cellAt exGrid (6, 1) ≠ '#' ∧
        3 ≤ countNbrs exGrid (6, 1) :=
  (get_option_points_junction_iff exGrid exStart exFinish (6, 1)
    (by decide) (by decide)).1

/-! ### C1: the search returns exactly the maximum simple-path weight -/

/-- C1: for every well-formed weighted graph over its node set with a
designated entry among the keys, if at least one simple entry-to-exit
path exists then `get_max_steps` succeeds and returns exactly the
maximum, over all simple entry-to-exit paths, of the summed edge
weights. -/
theorem get_max_steps_is_max (graph : Graph) (entry exit : Pos)
    (hWF : WFGraph graph) (hentry : entry ∈ gkeys graph)
    (hpath : ∃ p w, GPath graph entry exit p w) :
    ∃ p w, GPath graph entry exit p w ∧
      get_max_steps graph entry exit = some ((w : ℤ) : WithBot ℤ) ∧
      ∀ q u, GPath graph entry exit q u → u ≤ w := by
  rcases dfs_spec graph exit hWF (dfsFuel graph) [] entry (Or.inl hentry) (by simp)
    List.nodup_nil (by simp) (by simp [gkeys, dfsFuel]) with ⟨r, hdfs, hmax⟩
  rcases hpath with ⟨p0, w0, hp0⟩
  have hw0 : w0 ∈ PathWeights graph entry exit [] := ⟨p0, hp0, by simp⟩
  have hble := hmax.1 w0 hw0
  induction r using WithBot.recBotCoe with
  | bot => exact absurd (le_bot_iff.mp hble) WithBot.coe_ne_bot
  | coe z =>
    rcases hmax.2 z rfl with ⟨p, hp, -⟩
    refine ⟨p, z, hp, ?_, ?_⟩
    · rw [get_max_steps, hdfs]
      rfl
    · intro q u hq
      have hu : u ∈ PathWeights graph entry exit [] := ⟨q, hq, by simp⟩
      exact_mod_cast hmax.1 u hu

/-- Witness for `get_max_steps_is_max` on a two-node graph with one
edge of weight 5. -/
theorem get_max_steps_is_max_witness :
    ∃ p w, GPath [((0, 0), [((1, 1), 5)]), ((1, 1), [])] (0, 0) (1, 1) p w ∧
      get_max_steps [((0, 0), [((1, 1), 5)]), ((1, 1), [])] (0, 0) (1, 1) =
        some ((w : ℤ) : WithBot ℤ) ∧
      ∀ q u, GPath [((0, 0), [((1, 1), 5)]), ((1, 1), [])] (0, 0) (1, 1) q u → u ≤ w :=
  get_max_steps_is_max [((0, 0), [((1, 1), 5)]), ((1, 1), [])] (0, 0) (1, 1)
    (by decide) (by decide)
    ⟨[(0, 0), (1, 1)], 5 + 0,
      GPath.cons (0, 0) (1, 1) (1, 1) 5 0 [(1, 1)] (by decide)
        (GPath.single (1, 1)) (by decide)⟩

/-! ### C2 (amended): the unreachable outcome -/

/-- C2 amended: for every well-formed graph whose entry is among its
keys (as every graph built by `build_graph` from its own points list
is), if no entry-to-exit path exists then `get_max_steps` returns the
distinct `Unreachable` value `⊥` — different from every integer result
— and does not crash.  (As stated over arbitrary graphs the claim
fails: a missing adjacency key crashes the search, see the
counterexample.) -/
theorem get_max_steps_unreachable (graph : Graph) (entry exit : Pos)
    (hWF : WFGraph graph) (hentry : entry ∈ gkeys graph)
    (hnopath : ¬ ∃ p w, GPath graph entry exit p w) :
    get_max_steps graph entry exit = some (⊥ : WithBot ℤ) ∧
      ∀ z : ℤ, some (⊥ : WithBot ℤ) ≠ some ((z : ℤ) : WithBot ℤ) := by
  rcases dfs_spec graph exit hWF (dfsFuel graph) [] entry (Or.inl hentry) (by simp)
    List.nodup_nil (by simp) (by simp [gkeys, dfsFuel]) with ⟨r, hdfs, hmax⟩
  have hrbot : r = ⊥ := by
    induction r using WithBot.recBotCoe with
    | bot => rfl
    | coe z =>
      rcases hmax.2 z rfl with ⟨p, hp, -⟩
      exact absurd ⟨p, z, hp⟩ hnopath
  subst hrbot
  refine ⟨by rw [get_max_steps, hdfs]; rfl, ?_⟩
  intro z hz
  exact WithBot.bot_ne_coe (Option.some.inj hz)

/-- Witness for `get_max_steps_unreachable` on a one-node graph with no
edges and a distinct exit. -/
theorem get_max_steps_unreachable_witness :
    get_max_steps [((0, 0), ([] : Adj))] (0, 0) (9, 9) = some (⊥ : WithBot ℤ) ∧
      ∀ z : ℤ, some (⊥ : WithBot ℤ) ≠ some ((z : ℤ) : WithBot ℤ) :=
  get_max_steps_unreachable [((0, 0), ([] : Adj))] (0, 0) (9, 9) (by decide) (by decide)
    (by
      rintro ⟨p, w, h⟩
      cases h with
      | cons a b c w ws p hw hp ha => simp [edgeW, lookupAdj, lookupW] at hw)

/-! ### C6 (amended): monotonicity under edge-preserving extension -/

/-- C6 amended: the constrained-mode result is not in general bounded
by the free-mode result (see the counterexample); what holds is
monotonicity at the graph level: whenever every edge of the first
graph appears in the second graph with the same weight — which is what
the spec's "removing directional restrictions can only add route
options" presumes of the two corridor graphs — the first search result
is at most the second. -/
theorem get_max_steps_mono (g1 g2 : Graph) (entry exit : Pos)
    (h1 : WFGraph g1) (h2 : WFGraph g2) (he1 : entry ∈ gkeys g1) (he2 : entry ∈ gkeys g2)
    (hsub : ∀ kv ∈ g1, ∀ e ∈ kv.2, edgeW g2 kv.1 e.1 = some e.2) :
    ∃ r1 r2, get_max_steps g1 entry exit = some r1 ∧
      get_max_steps g2 entry exit = some r2 ∧ r1 ≤ r2 := by
  rcases dfs_spec g1 exit h1 (dfsFuel g1) [] entry (Or.inl he1) (by simp)
    List.nodup_nil (by simp) (by simp [gkeys, dfsFuel]) with ⟨r1, hd1, hm1⟩
  rcases dfs_spec g2 exit h2 (dfsFuel g2) [] entry (Or.inl he2) (by simp)
    List.nodup_nil (by simp) (by simp [gkeys, dfsFuel]) with ⟨r2, hd2, hm2⟩
  refine ⟨r1, r2, by rw [get_max_steps, hd1]; rfl, by rw [get_max_steps, hd2]; rfl, ?_⟩
  induction r1 using WithBot.recBotCoe with
  | bot => exact bot_le
  | coe z =>
    rcases hm1.2 z rfl with ⟨p, hp, -⟩
    exact hm2.1 z ⟨p, gpath_mono hsub hp, by simp⟩

/-- Witness for `get_max_steps_mono` with a graph extended against
itself. -/
theorem get_max_steps_mono_witness :
    ∃ r1 r2, get_max_steps [((0, 0), [((1, 1), 3)]), ((1, 1), [])] (0, 0) (1, 1) = some r1 ∧
      get_max_steps [((0, 0), [((1, 1), 3)]), ((1, 1), [])] (0, 0) (1, 1) = some r2 ∧
      r1 ≤ r2 :=
  get_max_steps_mono [((0, 0), [((1, 1), 3)]), ((1, 1), [])]
    [((0, 0), [((1, 1), 3)]), ((1, 1), [])] (0, 0) (1, 1)
    (by decide) (by decide) (by decide) (by decide) (by decide)

/-! ### C8: no search state persists across top-level calls -/

/-- C8: search state never persists across independent top-level
invocations: whenever the first top-level `dfs` call (which
`get_max_steps` issues with a fresh empty visited set) returns, its
backtracking has emptied the visited set again, so running the second
search with the set left over from the first is exactly the fresh
independent `get_max_steps` run on the second graph. -/
theorem dfs_visited_restored_top (g1 g2 : Graph) (s f : Pos) (r1 : WithBot ℤ)
    (v1 : List Pos) (h : dfs g1 f (dfsFuel g1) s [] = some (r1, v1)) :
    v1 = [] ∧ (dfs g2 f (dfsFuel g2) s v1).map (fun rv => rv.1) = get_max_steps g2 s f := by
  have hv : v1 = [] := dfs_restore g1 f (dfsFuel g1) s [] r1 v1 (by simp) h
  exact ⟨hv, by rw [hv]; rfl⟩

/-- Witness for `dfs_visited_restored_top` chaining a constrained-mode
search into a free-mode search on one-node graphs. -/
theorem dfs_visited_restored_top_witness :
    ([] : List Pos) = [] ∧
      (dfs [((0, 0), ([] : Adj))] (1, 1) (dfsFuel [((0, 0), ([] : Adj))]) (0, 0)
        ([] : List Pos)).map (fun rv => rv.1) =
        get_max_steps [((0, 0), ([] : Adj))] (0, 0) (1, 1) :=
  dfs_visited_restored_top [((0, 0), ([] : Adj))] [((0, 0), ([] : Adj))] (0, 0) (1, 1)
    ⊥ [] (by decide)

/-! ### C5 (amended): free-mode adjacency symmetry -/

/-- C5 amended: the free-mode graph is not weight-symmetric (see the
counterexample), but it is symmetric as to adjacency: for every grid
and every node list whose cells are in bounds and passable, whenever
the free-mode graph of `build_graph` contains an edge `a → b`, it also
contains an edge `b → a` (with some weight, possibly different).  The
recorded edge is sound for an interior-node-free walk `a → b`; that
walk reverses cell by cell, and the exhaustive walk from `b` then
reaches and records `a`. -/
theorem build_graph_p2_symm (grid : Grid) (points : List Pos)
    (hvp : ∀ q ∈ points, is_valid_loc grid q = true ∧ cellAt grid q ≠ '#')
    (a b : Pos) (w : ℤ)
    (hedge : edgeW (build_graph grid points 2) a b = some w) :
    ∃ w2, edgeW (build_graph grid points 2) b a = some w2 := by
  rcases build_graph_sound grid points a b w hedge with ⟨hap, hbp, hba, hwalk⟩
  have hrev : Walkable grid points b a :=
    walkable_symm hwalk (hvp a hap).1 (hvp a hap).2
  exact build_graph_records grid points b a hbp hap (Ne.symm hba) hrev

/-- Witness for `build_graph_p2_symm` on `exGrid`: the recorded edge
`(6,1) → (8,6)` forces a reverse edge `(8,6) → (6,1)`. -/
theorem build_graph_p2_symm_witness :
    ∃ w2, edgeW (build_graph exGrid exPoints 2) (8, 6) (6, 1) = some w2 :=
  build_graph_p2_symm exGrid exPoints (by decide) (6, 1) (8, 6) 7 (by decide)

/-! ### C9: the built graph has no self-loop -/

/-- C9: for every grid and node list, the graph produced by
`build_graph` contains no self-loop, even when the grid contains a
cycle leading from a node back to itself: the source cell is in the
walk's seen set from the start, so it is never pushed again, and the
only stack entry carrying it has step count 0, which the recording
condition rejects. -/
theorem build_graph_no_self_loop (grid : Grid) (points : List Pos) (p : ℕ) (a : Pos) :
    edgeW (build_graph grid points p) a a = none := by
  rw [build_graph]
  have main : ∀ (l : List Pos) (acc : Graph), (∀ q, edgeW acc q q = none) →
      ∀ q, edgeW (l.foldl
        (fun graph s => walkLoop grid p points s (buildFuel grid) [(0, s)] [s] graph) acc)
        q q = none := by
    intro l
    induction l with
    | nil => intro acc h q; exact h q
    | cons s rest ihr =>
      intro acc h q
      rw [List.foldl_cons]
      refine ihr _ ?_ q
      intro q2
      refine walkLoop_no_self grid p points s (buildFuel grid) [(0, s)] [s] acc ?_
        (List.mem_singleton_self s) h q2
      intro e he _
      rw [List.mem_singleton.mp he]
  exact main points _ (initGraph_self_none points) a

/-! ### C10: edge targets are keys and the search cannot crash -/

/-- C10: for every graph produced by `build_graph`, every node that
appears as an edge target is itself a key of the graph dictionary;
consequently the adjacency lookup `graph[nxt]` inside the search is
defined for every node reachable from the entry, and `get_max_steps`
on the built graph never fails on a missing key (for any entry taken
from the points list and any exit). -/
theorem build_graph_closed_and_search_safe (grid : Grid) (points : List Pos) (p : ℕ)
    (s f : Pos) (hs : s ∈ points) :
    (∀ kv ∈ build_graph grid points p, ∀ e ∈ kv.2,
        e.1 ∈ gkeys (build_graph grid points p)) ∧
      ∃ r, get_max_steps (build_graph grid points p) s f = some r := by
  have hinv := build_graph_inv grid points p
  refine ⟨fun kv hm e he => hinv.1 _ (hinv.2.2.2 kv hm e he), ?_⟩
  rcases dfs_spec (build_graph grid points p) f (buildInv_WF hinv)
    (dfsFuel (build_graph grid points p)) [] s (Or.inl (hinv.1 s hs)) (by simp)
    List.nodup_nil (by simp) (by simp [gkeys, dfsFuel]) with ⟨r, hdfs, -⟩
  exact ⟨r, by rw [get_max_steps, hdfs]; rfl⟩

/-- Witness for `build_graph_closed_and_search_safe` on a two-cell
open grid with the pipeline's own points list. -/
theorem build_graph_closed_and_search_safe_witness :
    (∀ kv ∈ build_graph [['.'], ['.']] (get_option_points [['.'], ['.']] (0, 0) (1, 0)) 2,
        ∀ e ∈ kv.2,
          e.1 ∈ gkeys (build_graph [['.'], ['.']]
            (get_option_points [['.'], ['.']] (0, 0) (1, 0)) 2)) ∧
      ∃ r, get_max_steps (build_graph [['.'], ['.']]
        (get_option_points [['.'], ['.']] (0, 0) (1, 0)) 2) (0, 0) (1, 0) = some r :=
  build_graph_closed_and_search_safe [['.'], ['.']]
    (get_option_points [['.'], ['.']] (0, 0) (1, 0)) 2 (0, 0) (1, 0) (by decide)

end Day23
